import Mathlib

/-!
Verification of the core of the `analisis_diseno_alg` repository: the binary
min-heap of `estructuras_datos/heap.py` (storing `(score, item_id)` tuples,
compared lexicographically, as Python compares tuples), the bounded Top-K
selector of `sistema_rec/sistema_rec1.py` and the naive full-sort selector of
`sistema_rec/sistema_rec_naive.py`.

Modelling conventions:
* The Python list `self._data` becomes a `List α`; in-place mutation becomes
  explicit state passing.  All reads `self._data[i]` are modelled with
  `List.getD i default`; every read performed by the code is in bounds, so the
  `default` value is never observed (Python would raise instead).
* Python tuple values `(score, item_id)` become `Lex (WithTop S × I)`: Python
  compares tuples lexicographically, and the insert sentinel
  `(float("inf"), "")` becomes `(⊤, default)` (for `I = String`,
  `default = ""` exactly as in the source).
* Python exceptions become `Except HeapError`: the explicit
  `IndexError("... en heap vacío")` raised by `heap_minimum`/`heap_extract_min`
  on an empty heap is `HeapError.empty`; the `ValueError` of
  `heap_decrease_key` is `HeapError.invalidKey`; the `IndexError` raised by an
  out-of-range list subscript in `heap_decrease_key` is `HeapError.indexError`.
  A function that raises leaves the (functional) state untouched by
  construction, mirroring the Python code, which raises before any mutation.
* Python list indexing in `heap_decrease_key(i, key)` accepts negative indices
  in the window `-len ≤ i < 0`; `pyResolve` models this resolution, and the
  sift-up loop `while i > 0 and ...` is skipped for a negative raw `i`,
  exactly as in CPython.
-/

set_option autoImplicit false
set_option maxHeartbeats 1000000
set_option linter.unusedSectionVars false
set_option linter.unusedVariables false

/-- Errors raised by the heap: `empty` models the explicit
`IndexError("... en heap vacío")` checks, `invalidKey` the `ValueError` of
`heap_decrease_key`, and `indexError` an out-of-range list subscript. -/
inductive HeapError where
  | empty
  | invalidKey
  | indexError
deriving DecidableEq

namespace MinHeap

variable {α : Type} [LinearOrder α] [Inhabited α]

/-- `MinHeap.parent`: `(i - 1) // 2` (only ever used at `i > 0`, where Python
and natural subtraction agree). -/
def parent (i : ℕ) : ℕ := (i - 1) / 2

/-- `MinHeap.left`: `2 * i + 1`. -/
def left (i : ℕ) : ℕ := 2 * i + 1

/-- `MinHeap.right`: `2 * i + 2`. -/
def right (i : ℕ) : ℕ := 2 * i + 2

/-- The simultaneous swap
`self._data[i], self._data[j] = self._data[j], self._data[i]`. -/
def swapAt (l : List α) (i j : ℕ) : List α :=
  (l.set i (l.getD j default)).set j (l.getD i default)

theorem length_swapAt (l : List α) (i j : ℕ) :
    (swapAt l i j).length = l.length := by
  simp [swapAt]

theorem getD_set_self {l : List α} {i : ℕ} (h : i < l.length) (a d : α) :
    (l.set i a).getD i d = a := by
  rw [List.getD_eq_getElem _ _ (by simpa using h)]
  exact List.getElem_set_self _

theorem getD_set_ne {l : List α} {i j : ℕ} (h : i ≠ j) (a d : α) :
    (l.set i a).getD j d = l.getD j d := by
  by_cases hj : j < l.length
  · rw [List.getD_eq_getElem _ _ (by simpa using hj), List.getD_eq_getElem _ _ hj]
    exact List.getElem_set_ne h _
  · rw [List.getD_eq_default _ _ (by simpa using le_of_not_lt hj),
      List.getD_eq_default _ _ (le_of_not_lt hj)]

theorem getD_swapAt_fst {l : List α} {i j : ℕ} (hi : i < l.length)
    (hj : j < l.length) : (swapAt l i j).getD i default = l.getD j default := by
  unfold swapAt
  by_cases hij : i = j
  · subst hij
    rw [getD_set_self (by simpa using hi)]
  · rw [getD_set_ne (fun h => hij h.symm), getD_set_self hi]

theorem getD_swapAt_snd {l : List α} {i j : ℕ} (hj : j < l.length) :
    (swapAt l i j).getD j default = l.getD i default := by
  unfold swapAt
  rw [getD_set_self (by simpa using hj)]

theorem getD_swapAt_other {l : List α} {i j k : ℕ} (hki : k ≠ i) (hkj : k ≠ j) :
    (swapAt l i j).getD k default = l.getD k default := by
  unfold swapAt
  rw [getD_set_ne (fun h => hkj h.symm), getD_set_ne (fun h => hki h.symm)]

theorem getD_cons_set_perm :
    ∀ (t : List α) (m : ℕ) (a : α), m < t.length →
      ((t.getD m default) :: t.set m a).Perm (a :: t) := by
  intro t
  induction t with
  | nil => intro m a h; simp at h
  | cons x s ih =>
    intro m a h
    cases m with
    | zero => simpa using List.Perm.swap a x s
    | succ m =>
      have hm : m < s.length := by simpa using h
      have e : (x :: s).getD (m + 1) default :: (x :: s).set (m + 1) a
          = s.getD m default :: x :: s.set m a := by simp
      rw [e]
      exact ((List.Perm.swap x (s.getD m default) (s.set m a)).trans
        ((ih m a hm).cons x)).trans (List.Perm.swap a x s)

theorem swapAt_perm :
    ∀ (l : List α) (i j : ℕ), i < l.length → j < l.length →
      (swapAt l i j).Perm l := by
  intro l
  induction l with
  | nil => intro i j hi; simp at hi
  | cons x t ih =>
    intro i j hi hj
    cases i with
    | zero =>
      cases j with
      | zero => simp [swapAt]
      | succ m =>
        have hm : m < t.length := by simpa using hj
        have : swapAt (x :: t) 0 (m + 1)
            = t.getD m default :: t.set m x := by
          simp [swapAt]
        rw [this]
        exact getD_cons_set_perm t m x hm
    | succ n =>
      cases j with
      | zero =>
        have hn : n < t.length := by simpa using hi
        have : swapAt (x :: t) (n + 1) 0
            = t.getD n default :: t.set n x := by
          simp [swapAt]
        rw [this]
        exact getD_cons_set_perm t n x hn
      | succ m =>
        have : swapAt (x :: t) (n + 1) (m + 1) = x :: swapAt t n m := by
          simp [swapAt]
        rw [this]
        exact (ih n m (by simpa using hi) (by simpa using hj)).cons x

/-- The candidate `smallest` of `MinHeap.min_heapify` after the left-child
test: `smallest = l` if the left child is in range and strictly smaller,
otherwise `smallest = i`. -/
def childMin1 (l : List α) (i : ℕ) : ℕ :=
  if left i < l.length ∧ l.getD (left i) default < l.getD i default
    then left i else i

/-- The final `smallest` of `MinHeap.min_heapify`: the right child replaces
the current candidate if it is in range and strictly smaller. -/
def childMin (l : List α) (i : ℕ) : ℕ :=
  if right i < l.length ∧
      l.getD (right i) default < l.getD (childMin1 l i) default
    then right i else childMin1 l i

theorem childMin1_le (l : List α) (i : ℕ) :
    l.getD (childMin1 l i) default ≤ l.getD i default := by
  unfold childMin1
  split_ifs with h
  · exact le_of_lt h.2
  · exact le_rfl

theorem childMin1_left (l : List α) (i : ℕ) (hl : left i < l.length) :
    l.getD (childMin1 l i) default ≤ l.getD (left i) default := by
  unfold childMin1
  split_ifs with h
  · exact le_rfl
  · rcases not_and_or.mp h with h | h
    · exact absurd hl h
    · exact le_of_not_lt h

theorem childMin_cases (l : List α) (i : ℕ) :
    childMin l i = i ∨ childMin l i = left i ∨ childMin l i = right i := by
  unfold childMin childMin1
  split_ifs <;> simp

theorem childMin_spec (l : List α) (i : ℕ) :
    childMin l i = i ∨ (i < childMin l i ∧ childMin l i < l.length) := by
  by_cases hR : right i < l.length ∧
      l.getD (right i) default < l.getD (childMin1 l i) default
  · unfold childMin
    rw [if_pos hR]
    exact Or.inr ⟨by simp only [right]; omega, hR.1⟩
  · unfold childMin
    rw [if_neg hR]
    by_cases hL : left i < l.length ∧
        l.getD (left i) default < l.getD i default
    · unfold childMin1
      rw [if_pos hL]
      exact Or.inr ⟨by simp only [left]; omega, hL.1⟩
    · unfold childMin1
      rw [if_neg hL]
      exact Or.inl rfl

/-- The value at the computed `smallest` index is `≤` the value at each child
of `i` that is in range. -/
theorem childMin_min (l : List α) (i j : ℕ) (hp : parent j = i) (hj0 : 0 < j)
    (hj : j < l.length) :
    l.getD (childMin l i) default ≤ l.getD j default := by
  have hlr : j = left i ∨ j = right i := by
    simp only [parent] at hp
    simp only [left, right]
    omega
  by_cases hR : right i < l.length ∧
      l.getD (right i) default < l.getD (childMin1 l i) default
  · unfold childMin
    rw [if_pos hR]
    rcases hlr with rfl | rfl
    · exact le_of_lt (lt_of_lt_of_le hR.2 (childMin1_left l i hj))
    · exact le_rfl
  · unfold childMin
    rw [if_neg hR]
    rcases hlr with rfl | rfl
    · exact childMin1_left l i hj
    · rcases not_and_or.mp hR with h | h
      · exact absurd hj h
      · exact le_of_not_lt h

/-- When `smallest ≠ i`, the value at `smallest` is strictly smaller than the
value at `i`. -/
theorem childMin_lt_of_ne (l : List α) (i : ℕ) (h : childMin l i ≠ i) :
    l.getD (childMin l i) default < l.getD i default := by
  by_cases hR : right i < l.length ∧
      l.getD (right i) default < l.getD (childMin1 l i) default
  · unfold childMin
    rw [if_pos hR]
    exact lt_of_lt_of_le hR.2 (childMin1_le l i)
  · unfold childMin at h ⊢
    rw [if_neg hR] at h ⊢
    unfold childMin1 at h ⊢
    split_ifs at h ⊢ with hL
    · exact hL.2
    · exact absurd rfl h

/-- `MinHeap.min_heapify`: restore the min-heap property of the subtree rooted
at `i`, assuming both child subtrees already satisfy it (recursive
implementation, as in the source). -/
def min_heapify (l : List α) (i : ℕ) : List α :=
  if h : childMin l i ≠ i then
    min_heapify (swapAt l i (childMin l i)) (childMin l i)
  else l
termination_by l.length - i
decreasing_by
  rcases childMin_spec l i with hs | hs
  · exact absurd hs h
  · rw [length_swapAt]; omega

/-- Auxiliary loop of `MinHeap.build_min_heap`:
`for i in range(n // 2 - 1, -1, -1): self.min_heapify(i)`, phrased so that
`buildFrom l (j + 1)` heapifies at `j`, then at `j - 1`, ..., then at `0`. -/
def buildFrom : List α → ℕ → List α
  | l, 0 => l
  | l, i + 1 => buildFrom (min_heapify l i) i

/-- `MinHeap.build_min_heap`: replace the contents with `array` and restore
the heap property bottom-up. -/
def build_min_heap (l : List α) : List α := buildFrom l (l.length / 2)

/-- `MinHeap.heap_minimum`: return the root without removing it; error on an
empty heap. -/
def heap_minimum (l : List α) : Except HeapError α :=
  if l.isEmpty then .error .empty else .ok (l.getD 0 default)

/-- `MinHeap.heap_extract_min`: `minimum = data[0]; data[0] = data[-1];
data.pop(); if data: min_heapify(0); return minimum`. -/
def heap_extract_min (l : List α) : Except HeapError (α × List α) :=
  if l.isEmpty then .error .empty
  else
    let d := (l.set 0 (l.getLast?.getD default)).dropLast
    .ok (l.getD 0 default, if d.isEmpty then d else min_heapify d 0)

/-- The sift-up loop of `MinHeap.heap_decrease_key`:
`while i > 0 and self._data[self.parent(i)] > self._data[i]: swap; i = parent(i)`. -/
def siftUp (l : List α) (i : ℕ) : List α :=
  if h : 0 < i ∧ l.getD i default < l.getD (parent i) default then
    siftUp (swapAt l (parent i) i) (parent i)
  else l
termination_by i
decreasing_by
  simp only [parent]
  omega

/-- Resolution of a Python list index: non-negative indices must be `< n`,
negative indices in the window `-n ≤ i < 0` address position `n + i`, and
anything else raises `IndexError`. -/
def pyResolve (n : ℕ) (i : ℤ) : Option ℕ :=
  if 0 ≤ i then (if i < (n : ℤ) then some i.toNat else none)
  else (if -(n : ℤ) ≤ i then some (i + n).toNat else none)

/-- `MinHeap.heap_decrease_key(i, key)`: Python first evaluates
`self._data[i]` (raising `IndexError` for an unresolvable index), then raises
`ValueError` when `key` is greater than the current value, otherwise writes
`key` at the resolved position and runs the sift-up loop (whose guard
`i > 0` is tested against the raw index, so a negative in-window index only
writes). -/
def heap_decrease_key (l : List α) (i : ℤ) (key : α) :
    Except HeapError (List α) :=
  match pyResolve l.length i with
  | none => .error .indexError
  | some j =>
      if l.getD j default < key then .error .invalidKey
      else .ok (if 0 ≤ i then siftUp (l.set j key) j else l.set j key)

/-- The min-heap invariant of the spec: for every non-root index `j` of the
array, the value at `parent j` is `≤` the value at `j`. -/
def IsMinHeap (l : List α) : Prop :=
  ∀ j, 0 < j → j < l.length →
    l.getD (parent j) default ≤ l.getD j default

instance (l : List α) : Decidable (IsMinHeap l) :=
  decidable_of_iff
    (∀ j, (_ : j < l.length) → 0 < j →
      l.getD (parent j) default ≤ l.getD j default)
    (by constructor
        · intro h j hj0 hj; exact h j hj hj0
        · intro h j hj hj0; exact h j hj0 hj)

/-- Partial heap property: every parent–child pair whose parent index is `≥ k`
is correctly ordered.  `HeapAbove l 0` is the full invariant. -/
def HeapAbove (l : List α) (k : ℕ) : Prop :=
  ∀ j, 0 < j → j < l.length → k ≤ parent j →
    l.getD (parent j) default ≤ l.getD j default

theorem isMinHeap_iff_heapAbove (l : List α) : IsMinHeap l ↔ HeapAbove l 0 := by
  constructor
  · intro h j hj0 hj _; exact h j hj0 hj
  · intro h j hj0 hj; exact h j hj0 hj (Nat.zero_le _)

theorem parent_lt {j : ℕ} (h : 0 < j) : parent j < j := by
  simp only [parent]; omega

/-- `desc c j` holds when index `j` lies in the subtree rooted at index `c`
of the implicit array-encoded binary tree (that is, the parent chain of `j`
passes through `c`). -/
def desc (c j : ℕ) : Bool :=
  if h1 : j < c then false
  else if h2 : j = c then true
  else desc c (parent j)
termination_by j
decreasing_by simp only [parent]; omega

theorem desc_self (c : ℕ) : desc c c = true := by
  rw [desc]; simp

theorem desc_le {c j : ℕ} (h : desc c j = true) : c ≤ j := by
  rw [desc] at h
  split_ifs at h with h1 h2
  · omega
  · omega

theorem not_desc_of_lt {c j : ℕ} (h : j < c) : desc c j = false := by
  rw [desc]; simp [h]

theorem desc_step {c j : ℕ} (hj : c < j) : desc c j = desc c (parent j) := by
  rw [desc, dif_neg (by omega), dif_neg (by omega)]

theorem desc_of_parent_eq {i j : ℕ} (hij : i < j) (hp : parent j = i) :
    desc i j = true := by
  rw [desc_step hij, hp, desc_self]

theorem desc_trans {i c : ℕ} (hic : desc i c = true) :
    ∀ j, desc c j = true → desc i j = true := by
  intro j
  induction j using Nat.strong_induction_on with
  | _ j ih =>
    intro hcj
    by_cases hjc : j = c
    · subst hjc; exact hic
    · have hlt : c < j := lt_of_le_of_ne (desc_le hcj) (Ne.symm hjc)
      have hij : i < j := lt_of_le_of_lt (desc_le hic) hlt
      rw [desc_step hij]
      exact ih (parent j) (parent_lt (by omega)) (by rwa [desc_step hlt] at hcj)

theorem desc_zero : ∀ j : ℕ, desc 0 j = true := by
  intro j
  induction j using Nat.strong_induction_on with
  | _ j ih =>
    by_cases hj : j = 0
    · subst hj; exact desc_self 0
    · rw [desc_step (by omega)]
      exact ih (parent j) (parent_lt (by omega))

theorem childMin_parent (l : List α) (i : ℕ) (h : childMin l i ≠ i) :
    parent (childMin l i) = i := by
  rcases childMin_cases l i with hc | hc | hc
  · exact absurd hc h
  · rw [hc]; simp only [parent, left]; omega
  · rw [hc]; simp only [parent, right]; omega

theorem min_heapify_length (l : List α) (i : ℕ) :
    (min_heapify l i).length = l.length := by
  induction l, i using min_heapify.induct with
  | case1 l i h ih =>
    rw [min_heapify, dif_pos h, ih, length_swapAt]
  | case2 l i h =>
    rw [min_heapify, dif_neg h]

theorem min_heapify_perm (l : List α) (i : ℕ) : (min_heapify l i).Perm l := by
  induction l, i using min_heapify.induct with
  | case1 l i h ih =>
    have hb : i < childMin l i ∧ childMin l i < l.length :=
      (childMin_spec l i).resolve_left h
    rw [min_heapify, dif_pos h]
    exact ih.trans (swapAt_perm l i (childMin l i) (lt_trans hb.1 hb.2) hb.2)
  | case2 l i h =>
    rw [min_heapify, dif_neg h]

/-- `min_heapify l i` only modifies positions inside the subtree rooted
at `i`. -/
theorem min_heapify_getD_not_desc (l : List α) (i : ℕ) :
    ∀ j, desc i j = false →
      (min_heapify l i).getD j default = l.getD j default := by
  induction l, i using min_heapify.induct with
  | case1 l i h ih =>
    intro j hj
    have hb : i < childMin l i ∧ childMin l i < l.length :=
      (childMin_spec l i).resolve_left h
    have hdic : desc i (childMin l i) = true :=
      desc_of_parent_eq hb.1 (childMin_parent l i h)
    rw [min_heapify, dif_pos h]
    have hdcj : desc (childMin l i) j = false := by
      cases hdc : desc (childMin l i) j
      · rfl
      · exact absurd (desc_trans hdic j hdc) (by simp [hj])
    rw [ih j hdcj]
    refine getD_swapAt_other (fun he => ?_) (fun he => ?_)
    · subst he; simp [desc_self] at hj
    · subst he; simp [desc_self] at hdcj
  | case2 l i h =>
    intro j hj
    rw [min_heapify, dif_neg h]

/-- A common lower bound of all values in the subtree rooted at `i` is
preserved by `min_heapify l i` (the subtree values are merely permuted). -/
theorem min_heapify_lowerBound (l : List α) (i : ℕ) :
    ∀ x : α, (∀ j, desc i j = true → j < l.length → x ≤ l.getD j default) →
    ∀ j, desc i j = true → j < l.length →
      x ≤ (min_heapify l i).getD j default := by
  induction l, i using min_heapify.induct with
  | case1 l i h ih =>
    intro x hlb j hj hjlen
    have hb : i < childMin l i ∧ childMin l i < l.length :=
      (childMin_spec l i).resolve_left h
    have hil : i < l.length := lt_trans hb.1 hb.2
    have hdic : desc i (childMin l i) = true :=
      desc_of_parent_eq hb.1 (childMin_parent l i h)
    rw [min_heapify, dif_pos h]
    have hswlb : ∀ j0, desc (childMin l i) j0 = true →
        j0 < (swapAt l i (childMin l i)).length →
        x ≤ (swapAt l i (childMin l i)).getD j0 default := by
      intro j0 hd hl0
      rw [length_swapAt] at hl0
      by_cases hj0c : j0 = childMin l i
      · subst hj0c
        rw [getD_swapAt_snd hb.2]
        exact hlb i (desc_self i) hil
      · have hj0i : j0 ≠ i := by
          intro he; subst he
          exact absurd (desc_le hd) (by omega)
        rw [getD_swapAt_other hj0i hj0c]
        exact hlb j0 (desc_trans hdic j0 hd) hl0
    by_cases hdcj : desc (childMin l i) j = true
    · exact ih x hswlb j hdcj (by rw [length_swapAt]; exact hjlen)
    · rw [min_heapify_getD_not_desc _ (childMin l i) j
        (by simpa using hdcj)]
      by_cases hji : j = i
      · rw [hji, getD_swapAt_fst hil hb.2]
        exact hlb (childMin l i) hdic hb.2
      · have hjc : j ≠ childMin l i := fun he => by
          subst he; simp [desc_self] at hdcj
        rw [getD_swapAt_other hji hjc]
        exact hlb j hj hjlen
  | case2 l i h =>
    intro x hlb j hj hjlen
    rw [min_heapify, dif_neg h]
    exact hlb j hj hjlen

/-- In a partial heap, the value at `c` is a lower bound of the whole
subtree rooted at `c`, provided all parent edges from `c` downward are
covered (`k ≤ c`). -/
theorem heapAbove_le_desc (l : List α) (k : ℕ) (hab : HeapAbove l k) (c : ℕ)
    (hkc : k ≤ c) :
    ∀ j, desc c j = true → j < l.length →
      l.getD c default ≤ l.getD j default := by
  intro j
  induction j using Nat.strong_induction_on with
  | _ j ih =>
    intro hd hj
    by_cases hjc : j = c
    · subst hjc; exact le_rfl
    · have hcj : c < j := lt_of_le_of_ne (desc_le hd) (Ne.symm hjc)
      have hplt : parent j < j := parent_lt (by omega)
      have hdp : desc c (parent j) = true := by rwa [desc_step hcj] at hd
      have hple : l.getD c default ≤ l.getD (parent j) default :=
        ih (parent j) hplt hdp (by omega)
      exact le_trans hple (hab j (by omega) hj (le_trans hkc (desc_le hdp)))

/-- Core correctness of `min_heapify`: if every parent edge with parent index
`≥ i + 1` is ordered (both child subtrees of `i` are heaps, and everything
outside is untouched and ordered), then after `min_heapify l i` every parent
edge with parent index `≥ i` is ordered. -/
theorem min_heapify_heapAbove (l : List α) (i : ℕ) :
    HeapAbove l (i + 1) → HeapAbove (min_heapify l i) i := by
  induction l, i using min_heapify.induct with
  | case2 l i h =>
    intro hab
    rw [min_heapify, dif_neg h]
    intro j hj0 hjlen hpar
    by_cases hp : i + 1 ≤ parent j
    · exact hab j hj0 hjlen hp
    · have hpi : parent j = i := by omega
      have := childMin_min l i j hpi hj0 hjlen
      rw [not_not.mp h] at this
      rw [hpi]
      exact this
  | case1 l i h ih =>
    intro hab
    rw [min_heapify, dif_pos h]
    have hb : i < childMin l i ∧ childMin l i < l.length :=
      (childMin_spec l i).resolve_left h
    have hil : i < l.length := lt_trans hb.1 hb.2
    have hpc : parent (childMin l i) = i := childMin_parent l i h
    have hdic : desc i (childMin l i) = true := desc_of_parent_eq hb.1 hpc
    have hwlen : (swapAt l i (childMin l i)).length = l.length :=
      length_swapAt l i (childMin l i)
    have hw_ab : HeapAbove (swapAt l i (childMin l i)) (childMin l i + 1) := by
      intro j hj0 hjlen hpar
      rw [hwlen] at hjlen
      have hplt : parent j < j := parent_lt hj0
      rw [getD_swapAt_other (by omega) (by omega),
        getD_swapAt_other (by omega) (by omega)]
      exact hab j hj0 hjlen (by omega)
    have hres_ab : HeapAbove (min_heapify (swapAt l i (childMin l i))
        (childMin l i)) (childMin l i) := ih hw_ab
    have hreslen : (min_heapify (swapAt l i (childMin l i))
        (childMin l i)).length = l.length := by
      rw [min_heapify_length, hwlen]
    -- the value at the root of the recursed subtree stays ≥ the old value
    -- at `childMin l i`
    have hlow : ∀ j0, desc (childMin l i) j0 = true →
        j0 < (swapAt l i (childMin l i)).length →
        l.getD (childMin l i) default ≤
          (swapAt l i (childMin l i)).getD j0 default := by
      intro j0 hd hl0
      rw [hwlen] at hl0
      by_cases hj0c : j0 = childMin l i
      · subst hj0c
        rw [getD_swapAt_snd hb.2]
        exact le_of_lt (childMin_lt_of_ne l i h)
      · have hj0i : j0 ≠ i := by
          intro he; subst he
          exact absurd (desc_le hd) (by omega)
        rw [getD_swapAt_other hj0i hj0c]
        exact heapAbove_le_desc l (i + 1) hab (childMin l i) (by omega)
          j0 hd hl0
    have hroot_ge : l.getD (childMin l i) default ≤
        (min_heapify (swapAt l i (childMin l i))
          (childMin l i)).getD (childMin l i) default := by
      have := min_heapify_lowerBound (swapAt l i (childMin l i))
        (childMin l i) (l.getD (childMin l i) default) hlow
        (childMin l i) (desc_self _) (by rw [hwlen]; exact hb.2)
      exact this
    have hres_i : (min_heapify (swapAt l i (childMin l i))
        (childMin l i)).getD i default = l.getD (childMin l i) default := by
      rw [min_heapify_getD_not_desc _ _ i (not_desc_of_lt hb.1),
        getD_swapAt_fst hil hb.2]
    intro j hj0 hjlen hpar
    rw [hreslen] at hjlen
    by_cases hpge : childMin l i ≤ parent j
    · exact hres_ab j hj0 (by rw [hreslen]; exact hjlen) hpge
    · by_cases hpi : parent j = i
      · -- `j` is a child of `i`: either the swapped child or its sibling
        by_cases hjc : j = childMin l i
        · subst hjc
          rw [hpi, hres_i]
          exact hroot_ge
        · -- sibling of the swapped child: untouched
          have hsib_out : desc (childMin l i) j = false := by
            rcases lt_or_ge j (childMin l i) with hjlt | hjge
            · exact not_desc_of_lt hjlt
            · have hjgt : childMin l i < j := lt_of_le_of_ne hjge
                (Ne.symm hjc)
              rw [desc_step hjgt, hpi]
              exact not_desc_of_lt hb.1
          have hji : j ≠ i := by
            have := parent_lt hj0; omega
          have e1 : (min_heapify (swapAt l i (childMin l i))
              (childMin l i)).getD j default = l.getD j default := by
            rw [min_heapify_getD_not_desc _ _ j hsib_out,
              getD_swapAt_other hji hjc]
          rw [hpi, hres_i, e1]
          exact childMin_min l i j hpi hj0 hjlen
      · -- `i < parent j < childMin l i`: the pair is entirely untouched
        have hpj_gt : i < parent j := lt_of_le_of_ne hpar
          (fun he => hpi he.symm)
        have hpj_lt : parent j < childMin l i := by omega
        have hplt : parent j < j := parent_lt hj0
        have hp_out : desc (childMin l i) (parent j) = false :=
          not_desc_of_lt hpj_lt
        have hjne : j ≠ childMin l i := by
          intro he
          rw [he, hpc] at hpi
          exact hpi rfl
        have hj_out : desc (childMin l i) j = false := by
          rcases lt_or_ge j (childMin l i) with hjlt | hjge
          · exact not_desc_of_lt hjlt
          · have hjgt : childMin l i < j := lt_of_le_of_ne hjge
              (Ne.symm hjne)
            rw [desc_step hjgt]
            exact not_desc_of_lt hpj_lt
        rw [min_heapify_getD_not_desc _ _ (parent j) hp_out,
          min_heapify_getD_not_desc _ _ j hj_out,
          getD_swapAt_other (by omega) (by omega),
          getD_swapAt_other (by omega) hjne]
        exact hab j hj0 hjlen (by omega)

theorem heapAbove_of_half (l : List α) : HeapAbove l (l.length / 2) := by
  intro j hj0 hjlen hpar
  simp only [parent] at hpar
  omega

theorem buildFrom_heapAbove :
    ∀ (i : ℕ) (l : List α), HeapAbove l i → HeapAbove (buildFrom l i) 0 := by
  intro i
  induction i with
  | zero => intro l hab; exact hab
  | succ i ih =>
    intro l hab
    exact ih (min_heapify l i) (min_heapify_heapAbove l i hab)

theorem build_min_heap_isMinHeap (l : List α) :
    IsMinHeap (build_min_heap l) := by
  rw [isMinHeap_iff_heapAbove]
  exact buildFrom_heapAbove (l.length / 2) l (heapAbove_of_half l)

theorem buildFrom_perm : ∀ (i : ℕ) (l : List α), (buildFrom l i).Perm l := by
  intro i
  induction i with
  | zero => intro l; exact List.Perm.refl l
  | succ i ih =>
    intro l
    exact (ih (min_heapify l i)).trans (min_heapify_perm l i)

theorem build_min_heap_perm (l : List α) : (build_min_heap l).Perm l :=
  buildFrom_perm (l.length / 2) l

/-- In a heap, the root is a lower bound of every entry. -/
theorem isMinHeap_root_le (l : List α) (h : IsMinHeap l) :
    ∀ j, j < l.length → l.getD 0 default ≤ l.getD j default := by
  intro j
  induction j using Nat.strong_induction_on with
  | _ j ih =>
    intro hj
    by_cases hj0 : j = 0
    · subst hj0; exact le_rfl
    · have hplt : parent j < j := parent_lt (by omega)
      exact le_trans (ih (parent j) hplt (by omega)) (h j (by omega) hj)

/-- Intermediate state of the sift-up loop: every parent edge is ordered
except possibly the one into position `i`, and additionally the grandparent
of `i` already bounds the children of `i`. -/
def AlmostUp (l : List α) (i : ℕ) : Prop :=
  (∀ j, 0 < j → j < l.length → j ≠ i →
    l.getD (parent j) default ≤ l.getD j default) ∧
  (0 < i → ∀ j, j < l.length → parent j = i →
    l.getD (parent i) default ≤ l.getD j default)

theorem siftUp_length (l : List α) (i : ℕ) : (siftUp l i).length = l.length := by
  induction l, i using siftUp.induct with
  | case1 l i h ih => rw [siftUp, dif_pos h, ih, length_swapAt]
  | case2 l i h => rw [siftUp, dif_neg h]

theorem siftUp_perm (l : List α) (i : ℕ) (hi : i < l.length) :
    (siftUp l i).Perm l := by
  induction l, i using siftUp.induct with
  | case1 l i h ih =>
    have hp : parent i < l.length := lt_trans (parent_lt h.1) hi
    rw [siftUp, dif_pos h]
    exact (ih (by rwa [length_swapAt])).trans (swapAt_perm l (parent i) i hp hi)
  | case2 l i h => rw [siftUp, dif_neg h]

theorem siftUp_isMinHeap (l : List α) (i : ℕ) :
    i < l.length → AlmostUp l i → IsMinHeap (siftUp l i) := by
  induction l, i using siftUp.induct with
  | case2 l i h =>
    intro hi halm
    rw [siftUp, dif_neg h]
    intro j hj0 hjlen
    by_cases hji : j = i
    · subst hji
      rcases not_and_or.mp h with h0 | hnlt
      · -- i = 0, contradiction with 0 < j
        omega
      · exact le_of_not_lt hnlt
    · exact halm.1 j hj0 hjlen hji
  | case1 l i h ih =>
    intro hi halm
    have hp_lt : parent i < i := parent_lt h.1
    have hp_len : parent i < l.length := lt_trans hp_lt hi
    rw [siftUp, dif_pos h]
    refine ih (by rwa [length_swapAt]) ⟨?_, ?_⟩
    · -- all parent edges except the one into `parent i` hold after the swap
      intro j hj0 hjlen hjp
      rw [length_swapAt] at hjlen
      have hplt_j : parent j < j := parent_lt hj0
      by_cases hji : j = i
      · -- the edge from `parent i` into `i`, now holding the old parent value
        subst hji
        rw [getD_swapAt_snd hi, getD_swapAt_fst hp_len hi]
        exact le_of_lt h.2
      · by_cases hpj_i : parent j = i
        · -- children of `i` (other than `i` itself): bounded by the
          -- grandparent value, which now sits at `i`
          have hjne_p : j ≠ parent i := by omega
          rw [getD_swapAt_other hjne_p hji, hpj_i, getD_swapAt_snd hi]
          exact halm.2 h.1 j hjlen hpj_i
        · by_cases hpj_p : parent j = parent i
          · -- sibling of `i` under `parent i`: old value of `i` is even
            -- smaller than the old parent value
            rw [getD_swapAt_other (by omega) hji, hpj_p,
              getD_swapAt_fst hp_len hi]
            have hedge := halm.1 j hj0 hjlen hji
            rw [hpj_p] at hedge
            exact le_trans (le_of_lt h.2) hedge
          · rw [getD_swapAt_other (by omega) hji,
              getD_swapAt_other hpj_p hpj_i]
            exact halm.1 j hj0 hjlen hji
    · -- grandparent condition at the new position `parent i`
      intro hp0 j hjlen hjp
      rw [length_swapAt] at hjlen
      have hpp_lt : parent (parent i) < parent i := parent_lt hp0
      have hpp_ne_p : parent (parent i) ≠ parent i := by omega
      have hpp_ne_i : parent (parent i) ≠ i := by omega
      rw [getD_swapAt_other hpp_ne_p hpp_ne_i]
      by_cases hji : j = i
      · rw [hji, getD_swapAt_snd hi]
        exact halm.1 (parent i) hp0 hp_len (by omega)
      · have hj_ne_p : j ≠ parent i := by
          intro he; rw [he] at hjp; omega
        have hj0 : 0 < j := by
          rcases Nat.eq_zero_or_pos j with rfl | h0
          · have h00 : parent 0 = 0 := by simp [parent]
            rw [h00] at hjp
            omega
          · exact h0
        rw [getD_swapAt_other hj_ne_p hji]
        have hedge := halm.1 j hj0 hjlen hji
        rw [hjp] at hedge
        exact le_trans (halm.1 (parent i) hp0 hp_len (by omega)) hedge

/-- Writing a `≤`-smaller value at a valid position of a heap leaves an
`AlmostUp` configuration at that position. -/
theorem almostUp_set (l : List α) (j : ℕ) (key : α) (hl : IsMinHeap l)
    (hj : j < l.length) (hkey : key ≤ l.getD j default) :
    AlmostUp (l.set j key) j := by
  constructor
  · intro j0 hj0 hjlen hne
    rw [List.length_set] at hjlen
    rw [getD_set_ne (fun he => hne he.symm) key default]
    by_cases hpj : parent j0 = j
    · rw [hpj, getD_set_self hj]
      exact le_trans hkey (by rw [← hpj]; exact hl j0 hj0 hjlen)
    · rw [getD_set_ne (fun he => hpj he.symm)]
      exact hl j0 hj0 hjlen
  · intro hj0 j0 hjlen hpj
    rw [List.length_set] at hjlen
    have hplt : parent j < j := parent_lt hj0
    have hne1 : j ≠ parent j := by omega
    rw [getD_set_ne hne1]
    by_cases hj0j : j0 = j
    · exfalso
      rw [hj0j] at hpj
      omega
    · rw [getD_set_ne (fun he => hj0j he.symm)]
      have hj0_pos : 0 < j0 := by
        rcases Nat.eq_zero_or_pos j0 with rfl | h0
        · have h00 : parent 0 = 0 := by simp [parent]
          rw [h00] at hpj
          omega
        · exact h0
      exact le_trans (hl j hj0 hj) (by rw [← hpj]; exact hl j0 hj0_pos hjlen)

theorem pyResolve_of_nonneg {n : ℕ} {i : ℤ} (h0 : 0 ≤ i) (hn : i < (n : ℤ)) :
    pyResolve n i = some i.toNat := by
  unfold pyResolve
  rw [if_pos h0, if_pos hn]

theorem pyResolve_out {n : ℕ} {i : ℤ} (h : i < -(n : ℤ) ∨ (n : ℤ) ≤ i) :
    pyResolve n i = none := by
  unfold pyResolve
  split_ifs with h1 h2 h3 <;> first | rfl | omega

theorem pyResolve_some_lt {n : ℕ} {i : ℤ} {j : ℕ}
    (h : pyResolve n i = some j) : j < n ∧ (0 ≤ i → (i : ℤ) = (j : ℤ)) := by
  unfold pyResolve at h
  split_ifs at h with h1 h2 h3
  · injection h with h
    subst h
    constructor
    · omega
    · intro _; omega
  · injection h with h
    subst h
    constructor
    · omega
    · intro h0; omega

/-- A successful `heap_decrease_key` at a non-negative index preserves the
heap invariant. -/
theorem heap_decrease_key_ok_isMinHeap (l : List α) (i : ℤ) (key : α)
    (res : List α) (hl : IsMinHeap l) (h0 : 0 ≤ i)
    (hok : heap_decrease_key l i key = .ok res) : IsMinHeap res := by
  unfold heap_decrease_key at hok
  cases hpr : pyResolve l.length i with
  | none => rw [hpr] at hok; exact absurd hok (by simp)
  | some j =>
    rw [hpr] at hok
    dsimp only at hok
    have hj : j < l.length := (pyResolve_some_lt hpr).1
    by_cases hbig : l.getD j default < key
    · rw [if_pos hbig] at hok
      exact absurd hok (by simp)
    · rw [if_neg hbig, if_pos h0] at hok
      injection hok with hok
      rw [← hok]
      exact siftUp_isMinHeap (l.set j key) j
        (by rw [List.length_set]; exact hj)
        (almostUp_set l j key hl hj (le_of_not_lt hbig))

theorem heap_decrease_key_ok_perm (l : List α) (i : ℤ) (key : α)
    (res : List α) (h0 : 0 ≤ i)
    (hok : heap_decrease_key l i key = .ok res) :
    ∃ j, j < l.length ∧ res.Perm (l.set j key) := by
  unfold heap_decrease_key at hok
  cases hpr : pyResolve l.length i with
  | none => rw [hpr] at hok; exact absurd hok (by simp)
  | some j =>
    rw [hpr] at hok
    dsimp only at hok
    have hj : j < l.length := (pyResolve_some_lt hpr).1
    by_cases hbig : l.getD j default < key
    · rw [if_pos hbig] at hok
      exact absurd hok (by simp)
    · rw [if_neg hbig, if_pos h0] at hok
      injection hok with hok
      refine ⟨j, hj, ?_⟩
      rw [← hok]
      exact siftUp_perm (l.set j key) j (by rw [List.length_set]; exact hj)

/-- The list produced by `data[0] = data[-1]; data.pop()`. -/
def popSwap (l : List α) : List α :=
  (l.set 0 (l.getLast?.getD default)).dropLast

theorem popSwap_length (l : List α) : (popSwap l).length = l.length - 1 := by
  simp [popSwap]

theorem popSwap_getD {l : List α} {j : ℕ} (hj0 : 0 < j)
    (hjlen : j < l.length - 1) :
    (popSwap l).getD j default = l.getD j default := by
  have h1 : j < (popSwap l).length := by rw [popSwap_length]; exact hjlen
  have h2 : j < l.length := by omega
  rw [List.getD_eq_getElem _ _ h1, List.getD_eq_getElem _ _ h2]
  unfold popSwap
  rw [List.getElem_dropLast]
  exact List.getElem_set_ne (by omega) _

theorem popSwap_cons_perm (l : List α) (h : l ≠ []) :
    (l.getD 0 default :: popSwap l).Perm l := by
  cases l with
  | nil => exact absurd rfl h
  | cons a t =>
    cases t with
    | nil => simp [popSwap]
    | cons b t2 =>
      have ht : (b :: t2) ≠ [] := by simp
      have hglast : (a :: b :: t2).getLast?.getD default
          = (b :: t2).getLast ht := by
        rw [List.getLast?_eq_getLast (a :: b :: t2) (by simp),
          List.getLast_cons ht]
        rfl
      have hset : (a :: b :: t2).set 0 ((b :: t2).getLast ht)
          = (b :: t2).getLast ht :: b :: t2 := rfl
      have hform : popSwap (a :: b :: t2)
          = (b :: t2).getLast ht :: (b :: t2).dropLast := by
        unfold popSwap
        rw [hglast, hset]
        rfl
      rw [hform]
      have hd : (a :: b :: t2).getD 0 default = a := rfl
      rw [hd]
      refine List.Perm.cons a ?_
      have := (List.perm_append_singleton ((b :: t2).getLast ht)
        ((b :: t2).dropLast)).symm
      rw [List.dropLast_append_getLast ht] at this
      exact this

theorem popSwap_heapAbove (l : List α) (hl : IsMinHeap l) :
    HeapAbove (popSwap l) 1 := by
  intro j hj0 hjlen hpar
  rw [popSwap_length] at hjlen
  have hplt : parent j < j := parent_lt hj0
  rw [popSwap_getD hj0 hjlen, popSwap_getD (by omega) (by omega)]
  exact hl j hj0 (by omega)

theorem heap_extract_min_nil :
    heap_extract_min ([] : List α) = .error .empty := rfl

theorem heap_extract_min_ne_nil (l : List α) (h : l ≠ []) :
    heap_extract_min l = .ok (l.getD 0 default,
      if (popSwap l).isEmpty then popSwap l else min_heapify (popSwap l) 0) := by
  unfold heap_extract_min
  rw [if_neg (by simpa using h)]
  rfl

theorem heap_extract_min_error (l : List α) (e : HeapError)
    (h : heap_extract_min l = .error e) : l = [] ∧ e = .empty := by
  by_cases hnil : l = []
  · subst hnil
    rw [heap_extract_min_nil] at h
    injection h with h
    exact ⟨rfl, h.symm⟩
  · rw [heap_extract_min_ne_nil l hnil] at h
    exact absurd h (by simp)

theorem heap_extract_min_ok_length (l : List α) (p : α × List α)
    (hok : heap_extract_min l = .ok p) : p.2.length + 1 = l.length := by
  by_cases hnil : l = []
  · subst hnil
    rw [heap_extract_min_nil] at hok
    exact absurd hok (by simp)
  · rw [heap_extract_min_ne_nil l hnil] at hok
    injection hok with hok
    have hlen : l.length ≠ 0 := by simpa using hnil
    rw [← hok]
    by_cases hd : (popSwap l).isEmpty
    · simp only [if_pos hd]
      have : (popSwap l).length = 0 := by
        rw [List.isEmpty_iff] at hd
        simp [hd]
      rw [popSwap_length] at this
      rw [popSwap_length]
      omega
    · simp only [if_neg hd]
      rw [min_heapify_length, popSwap_length]
      have : (popSwap l).length ≠ 0 := by
        intro hc
        rw [List.length_eq_zero] at hc
        rw [List.isEmpty_iff] at hd
        exact hd hc
      rw [popSwap_length] at this
      omega

theorem heap_extract_min_ok_perm (l : List α) (p : α × List α)
    (hok : heap_extract_min l = .ok p) : (p.1 :: p.2).Perm l := by
  by_cases hnil : l = []
  · subst hnil
    rw [heap_extract_min_nil] at hok
    exact absurd hok (by simp)
  · rw [heap_extract_min_ne_nil l hnil] at hok
    injection hok with hok
    rw [← hok]
    by_cases hd : (popSwap l).isEmpty
    · simp only [if_pos hd]
      exact popSwap_cons_perm l hnil
    · simp only [if_neg hd]
      exact (List.Perm.cons _ (min_heapify_perm (popSwap l) 0)).trans
        (popSwap_cons_perm l hnil)

theorem heap_extract_min_ok_isMinHeap (l : List α) (p : α × List α)
    (hl : IsMinHeap l) (hok : heap_extract_min l = .ok p) : IsMinHeap p.2 := by
  by_cases hnil : l = []
  · subst hnil
    rw [heap_extract_min_nil] at hok
    exact absurd hok (by simp)
  · rw [heap_extract_min_ne_nil l hnil] at hok
    injection hok with hok
    rw [← hok]
    by_cases hd : (popSwap l).isEmpty
    · simp only [if_pos hd]
      intro j hj0 hjlen
      rw [List.isEmpty_iff] at hd
      rw [hd] at hjlen
      simp at hjlen
    · simp only [if_neg hd]
      rw [isMinHeap_iff_heapAbove]
      exact min_heapify_heapAbove (popSwap l) 0 (popSwap_heapAbove l hl)

theorem heap_extract_min_ok_root (l : List α) (p : α × List α)
    (hok : heap_extract_min l = .ok p) : p.1 = l.getD 0 default := by
  by_cases hnil : l = []
  · subst hnil
    rw [heap_extract_min_nil] at hok
    exact absurd hok (by simp)
  · rw [heap_extract_min_ne_nil l hnil] at hok
    injection hok with hok
    rw [← hok]

/-- Repeatedly extract the minimum until the heap is empty, collecting the
extracted values in order (the drain loop
`while len(heap) > 0: result.append(heap.heap_extract_min())`). -/
def drain (l : List α) : List α :=
  match h : heap_extract_min l with
  | .error _ => []
  | .ok p => p.1 :: drain p.2
termination_by l.length
decreasing_by
  have := heap_extract_min_ok_length l p h
  omega

theorem drain_perm (l : List α) : (drain l).Perm l := by
  induction l using drain.induct with
  | case1 l e h =>
    rw [drain, h]
    rcases heap_extract_min_error l e h with ⟨rfl, _⟩
    exact List.Perm.refl _
  | case2 l p h ih =>
    rw [drain, h]
    exact (List.Perm.cons p.1 ih).trans (heap_extract_min_ok_perm l p h)

theorem drain_sorted (l : List α) (hl : IsMinHeap l) :
    List.Sorted (· ≤ ·) (drain l) := by
  induction l using drain.induct with
  | case1 l e h =>
    rw [drain, h]
    exact List.sorted_nil
  | case2 l p h ih =>
    rw [drain, h]
    rw [List.sorted_cons]
    constructor
    · intro b hb
      have hb2 : b ∈ p.2 := (drain_perm p.2).mem_iff.mp hb
      have hbl : b ∈ l := (heap_extract_min_ok_perm l p h).mem_iff.mp
        (by simp [hb2])
      rcases List.getElem_of_mem hbl with ⟨j, hj, hjb⟩
      rw [heap_extract_min_ok_root l p h, ← hjb,
        ← List.getD_eq_getElem l default hj]
      exact isMinHeap_root_le l hl j hj
    · exact ih (heap_extract_min_ok_isMinHeap l p hl h)

end MinHeap

/-- The values stored in the heap: Python tuples `(score, item_id)`, compared
lexicographically.  The score component lives in `WithTop S` so that the
insert sentinel `float("inf")` has a faithful counterpart `⊤`; all scores the
selectors insert are finite (coerced from `S`). -/
abbrev HeapVal (S I : Type) : Type := Lex (WithTop S × I)

namespace MinHeap

variable {S I : Type} [LinearOrder S] [LinearOrder I] [Inhabited I]

instance : Inhabited (HeapVal S I) := ⟨toLex (⊤, default)⟩

/-- The sentinel `(float("inf"), "")` appended by `min_heap_insert`
(for `I = String` the default element is precisely `""`). -/
def sentinel : HeapVal S I := toLex (⊤, default)

/-- `MinHeap.min_heap_insert`: append the sentinel, then decrease the key of
the last position (`len(self._data) - 1`) to the real value. -/
def min_heap_insert (l : List (HeapVal S I)) (key : HeapVal S I) :
    Except HeapError (List (HeapVal S I)) :=
  heap_decrease_key (l ++ [sentinel]) ((l.length : ℕ) : ℤ) key

theorem sentinel_not_lt (s : S) (id : I) :
    ¬ (sentinel : HeapVal S I) < toLex ((s : WithTop S), id) := by
  intro hlt
  rcases (Prod.Lex.lt_iff _ _).mp hlt with h | ⟨h, _⟩
  · exact absurd h not_top_lt
  · exact absurd h (by simp)

theorem set_append_length {β : Type} (l : List β) (a b : β) :
    (l ++ [a]).set l.length b = l ++ [b] := by
  induction l with
  | nil => rfl
  | cons x t ih =>
    show x :: (t ++ [a]).set t.length b = x :: (t ++ [b])
    exact congrArg (List.cons x) ih

theorem getD_append_sentinel (l : List (HeapVal S I)) :
    (l ++ [(sentinel : HeapVal S I)]).getD l.length default = sentinel := by
  rw [List.getD_eq_getElem _ _ (by simp)]
  exact List.getElem_concat_length l sentinel l.length rfl (by simp)

theorem min_heap_insert_eq (l : List (HeapVal S I)) (key : HeapVal S I)
    (hkey : ¬ (sentinel : HeapVal S I) < key) :
    min_heap_insert l key = .ok (siftUp (l ++ [key]) l.length) := by
  unfold min_heap_insert heap_decrease_key
  rw [pyResolve_of_nonneg (by omega) (by simp)]
  dsimp only
  rw [Int.toNat_natCast, getD_append_sentinel l, if_neg hkey, if_pos (by omega),
    set_append_length]

theorem min_heap_insert_err (l : List (HeapVal S I)) (key : HeapVal S I)
    (hkey : (sentinel : HeapVal S I) < key) :
    min_heap_insert l key = .error .invalidKey := by
  unfold min_heap_insert heap_decrease_key
  rw [pyResolve_of_nonneg (by omega) (by simp)]
  dsimp only
  rw [Int.toNat_natCast, getD_append_sentinel l, if_pos hkey]

theorem almostUp_append (l : List (HeapVal S I)) (key : HeapVal S I)
    (hl : IsMinHeap l) : AlmostUp (l ++ [key]) l.length := by
  constructor
  · intro j hj0 hjlen hne
    simp only [List.length_append, List.length_singleton] at hjlen
    have hj : j < l.length := by omega
    have hp : parent j < l.length := by
      have := parent_lt hj0; omega
    rw [List.getD_append _ _ _ _ hj, List.getD_append _ _ _ _ hp]
    exact hl j hj0 hj
  · intro h0 j hjlen hpj
    simp only [List.length_append, List.length_singleton] at hjlen
    exfalso
    simp only [parent] at hpj
    omega

theorem min_heap_insert_spec (l : List (HeapVal S I)) (key : HeapVal S I)
    (hkey : ¬ (sentinel : HeapVal S I) < key) :
    ∃ r, min_heap_insert l key = .ok r ∧ r.Perm (l ++ [key]) ∧
      r.length = l.length + 1 ∧ (IsMinHeap l → IsMinHeap r) := by
  refine ⟨siftUp (l ++ [key]) l.length, min_heap_insert_eq l key hkey,
    ?_, ?_, ?_⟩
  · exact siftUp_perm _ _ (by simp)
  · rw [siftUp_length]; simp
  · intro hl
    exact siftUp_isMinHeap _ _ (by simp) (almostUp_append l key hl)

/-- Any successful `min_heap_insert` adds exactly the inserted key (up to
permutation), grows the length by one, and preserves the invariant. -/
theorem min_heap_insert_ok_spec (l : List (HeapVal S I)) (key : HeapVal S I)
    (r : List (HeapVal S I)) (hok : min_heap_insert l key = .ok r) :
    r.Perm (l ++ [key]) ∧ r.length = l.length + 1 ∧
      (IsMinHeap l → IsMinHeap r) := by
  by_cases hkey : (sentinel : HeapVal S I) < key
  · rw [min_heap_insert_err l key hkey] at hok
    exact absurd hok (by simp)
  · rcases min_heap_insert_spec l key hkey with ⟨r2, he, hp, hlen, hinv⟩
    rw [he] at hok
    injection hok with hok
    subst hok
    exact ⟨hp, hlen, hinv⟩

theorem heap_minimum_nil :
    heap_minimum ([] : List (HeapVal S I)) = .error .empty := rfl

theorem heap_minimum_ne_nil {α : Type} [LinearOrder α] [Inhabited α]
    (l : List α) (h : l ≠ []) :
    heap_minimum l = .ok (l.getD 0 default) := by
  unfold heap_minimum
  rw [if_neg (by simpa using h)]

/-- Insert a sequence of finite-score `(score, item_id)` pairs one by one
into a heap (each via `min_heap_insert`). -/
def insertAll (l : List (HeapVal S I)) (xs : List (S × I)) :
    Except HeapError (List (HeapVal S I)) :=
  xs.foldlM (fun h p => min_heap_insert h (toLex ((p.1 : WithTop S), p.2))) l

theorem insertAll_ok :
    ∀ (xs : List (S × I)) (l : List (HeapVal S I)), IsMinHeap l →
      ∃ r, insertAll l xs = .ok r ∧ IsMinHeap r := by
  intro xs
  induction xs with
  | nil => intro l hl; exact ⟨l, rfl, hl⟩
  | cons p q ih =>
    intro l hl
    rcases min_heap_insert_spec l (toLex ((p.1 : WithTop S), p.2))
      (sentinel_not_lt p.1 p.2) with ⟨r1, he, hperm, hlen, hinv⟩
    rcases ih r1 (hinv hl) with ⟨r, he2, hr⟩
    refine ⟨r, ?_, hr⟩
    unfold insertAll at he2 ⊢
    rw [List.foldlM_cons, he]
    simpa using he2

theorem heapVal_le_fst {v w : HeapVal S I} (h : v ≤ w) :
    (ofLex v).1 ≤ (ofLex w).1 := by
  rcases (Prod.Lex.le_iff (ofLex v) (ofLex w)).mp h with h1 | ⟨h1, _⟩
  · exact le_of_lt h1
  · exact le_of_eq h1

theorem isMinHeap_nil : IsMinHeap ([] : List (HeapVal S I)) := by
  intro j hj0 hj
  simp at hj

end MinHeap

open MinHeap

/-- C2: for every finite sequence of `(score, item_id)` pairs inserted one by
one into an initially empty `MinHeap` via `min_heap_insert`, draining the
heap by repeated `heap_extract_min` yields the scores in non-decreasing
order. -/
theorem claim_C2_heap_sort {S I : Type} [LinearOrder S] [LinearOrder I]
    [Inhabited I] (xs : List (S × I)) :
    ∃ r, insertAll ([] : List (HeapVal S I)) xs = .ok r ∧
      List.Sorted (· ≤ ·) ((drain r).map (fun v => (ofLex v).1)) := by
  rcases insertAll_ok xs [] isMinHeap_nil with ⟨r, he, hr⟩
  refine ⟨r, he, ?_⟩
  have hs : List.Sorted (· ≤ ·) (drain r) := drain_sorted r hr
  exact List.pairwise_map.mpr (hs.imp heapVal_le_fst)

/-- C3 (amended): the min-heap invariant holds after `build_min_heap` on any
input, and is preserved by every successful `min_heap_insert`,
`heap_extract_min`, and `heap_decrease_key` *called with a non-negative
index* on a heap that satisfies it.  (As stated the claim is false: a
successful `heap_decrease_key` through a negative in-window Python index
skips the sift-up loop and can break the invariant; see the
counterexample.) -/
theorem claim_C3_amended_invariant {α S I : Type} [LinearOrder α]
    [Inhabited α] [LinearOrder S] [LinearOrder I] [Inhabited I] :
    (∀ xs : List α, IsMinHeap (build_min_heap xs)) ∧
    (∀ (l r : List (HeapVal S I)) (v : HeapVal S I), IsMinHeap l →
      min_heap_insert l v = .ok r → IsMinHeap r) ∧
    (∀ (l : List α) (p : α × List α), IsMinHeap l →
      heap_extract_min l = .ok p → IsMinHeap p.2) ∧
    (∀ (l r : List α) (i : ℤ) (key : α), IsMinHeap l → 0 ≤ i →
      heap_decrease_key l i key = .ok r → IsMinHeap r) := by
  refine ⟨build_min_heap_isMinHeap, ?_, ?_, ?_⟩
  · intro l r v hl hok
    exact (min_heap_insert_ok_spec l v r hok).2.2 hl
  · intro l p hl hok
    exact heap_extract_min_ok_isMinHeap l p hl hok
  · intro l r i key hl h0 hok
    exact heap_decrease_key_ok_isMinHeap l i key r hl h0 hok

/-- C3 counterexample: on the two-element heap `[(1, 0), (2, 0)]`, the call
`heap_decrease_key(-1, (0, 0))` (a legal Python call through negative
indexing) succeeds but leaves `[(1, 0), (0, 0)]`, which violates the
invariant — so the claim as stated (preservation by *every* successful
`heap_decrease_key`) is false. -/
theorem claim_C3_counterexample :
    IsMinHeap [toLex ((1 : WithTop ℚ), (0 : ℕ)), toLex (2, 0)] ∧
    heap_decrease_key [toLex ((1 : WithTop ℚ), (0 : ℕ)), toLex (2, 0)]
      (-1) (toLex (0, 0)) = .ok [toLex (1, 0), toLex (0, 0)] ∧
    ¬ IsMinHeap [toLex ((1 : WithTop ℚ), (0 : ℕ)), toLex (0, 0)] := by
  refine ⟨by decide, by rfl, by decide⟩

/-- C3 witness: the amended theorem applied at concrete inputs — a concrete
`build_min_heap`, and a successful decrease-key at index `0` on a concrete
two-element heap. -/
theorem claim_C3_witness :
    IsMinHeap (build_min_heap
      [toLex ((3 : WithTop ℚ), (0 : ℕ)), toLex (1, 0), toLex (2, 0)]) ∧
    ∀ r, heap_decrease_key [toLex ((1 : WithTop ℚ), (0 : ℕ)), toLex (2, 0)]
      0 (toLex (0, 0)) = .ok r → IsMinHeap r := by
  constructor
  · exact (claim_C3_amended_invariant (S := ℚ) (I := ℕ)).1 _
  · intro r hr
    exact (claim_C3_amended_invariant (α := HeapVal ℚ ℕ) (S := ℚ)
      (I := ℕ)).2.2.2 _ r 0 _ (by decide) (by decide) hr

/-- C4: for every `(score, item_id)` value `v` and every heap satisfying the
invariant, `min_heap_insert v` succeeds — the sentinel it appends compares
larger than `v` — and afterwards the heap contains `v` and its size has
grown by exactly one. -/
theorem claim_C4_insert_total {S I : Type} [LinearOrder S] [LinearOrder I]
    [Inhabited I] (l : List (HeapVal S I)) (s : S) (id : I)
    (hl : IsMinHeap l) :
    toLex ((s : WithTop S), id) < (sentinel : HeapVal S I) ∧
    ∃ r, min_heap_insert l (toLex ((s : WithTop S), id)) = .ok r ∧
      toLex ((s : WithTop S), id) ∈ r ∧ r.length = l.length + 1 := by
  constructor
  · exact (Prod.Lex.lt_iff _ _).mpr (Or.inl (WithTop.coe_lt_top s))
  · rcases min_heap_insert_spec l (toLex ((s : WithTop S), id))
      (sentinel_not_lt s id) with ⟨r, he, hperm, hlen, _⟩
    refine ⟨r, he, ?_, hlen⟩
    rw [hperm.mem_iff]
    simp

/-- C4 witness: inserting `(1, 7)` into the concrete singleton heap
`[(2, 5)]`. -/
theorem claim_C4_witness :
    toLex (((1 : ℚ) : WithTop ℚ), (7 : ℕ)) < (sentinel : HeapVal ℚ ℕ) ∧
    ∃ r, min_heap_insert [toLex ((2 : WithTop ℚ), (5 : ℕ))]
        (toLex (((1 : ℚ) : WithTop ℚ), 7)) = .ok r ∧
      toLex (((1 : ℚ) : WithTop ℚ), (7 : ℕ)) ∈ r ∧ r.length = 2 :=
  claim_C4_insert_total [toLex ((2 : WithTop ℚ), (5 : ℕ))] 1 7 (by decide)

/-- C5: for every heap state and every index `i` that Python resolves to a
position `j` inside the heap, `heap_decrease_key i key` raises
`InvalidKeyError` if and only if `key` compares greater than the value
currently at `j`.  (When it raises, the returned state is an error and no
modified list is produced: the model mirrors the source, which checks the
key before mutating anything.) -/
theorem claim_C5_invalid_key_iff {α : Type} [LinearOrder α] [Inhabited α]
    (l : List α) (i : ℤ) (key : α) (j : ℕ)
    (hres : pyResolve l.length i = some j) :
    heap_decrease_key l i key = .error .invalidKey ↔
      l.getD j default < key := by
  unfold heap_decrease_key
  rw [hres]
  dsimp only
  by_cases hlt : l.getD j default < key
  · rw [if_pos hlt]
    exact iff_of_true rfl hlt
  · rw [if_neg hlt]
    exact iff_of_false (by simp) hlt

/-- C5 witness: on the singleton heap `[(5, 0)]` at index `0`, decreasing to
`(9, 0)` raises `InvalidKeyError`, and decreasing to `(3, 0)` does not. -/
theorem claim_C5_witness :
    pyResolve 1 0 = some 0 ∧
    heap_decrease_key [toLex ((5 : WithTop ℚ), (0 : ℕ))] 0
      (toLex (9, 0)) = .error .invalidKey ∧
    heap_decrease_key [toLex ((5 : WithTop ℚ), (0 : ℕ))] 0
      (toLex (3, 0)) ≠ .error .invalidKey := by
  refine ⟨by decide, ?_, ?_⟩
  · exact (claim_C5_invalid_key_iff [toLex ((5 : WithTop ℚ), (0 : ℕ))] 0
      (toLex (9, 0)) 0 (by decide)).mpr (by decide)
  · intro hc
    exact absurd ((claim_C5_invalid_key_iff
      [toLex ((5 : WithTop ℚ), (0 : ℕ))] 0 (toLex (3, 0)) 0
      (by decide)).mp hc) (by decide)

/-- C8: `heap_extract_min` and `heap_minimum` invoked on a heap holding zero
elements always fail with `EmptyError` (and, the model being functional, no
modified heap is produced). -/
theorem claim_C8_empty_errors {α : Type} [LinearOrder α] [Inhabited α] :
    heap_minimum ([] : List α) = .error .empty ∧
    heap_extract_min ([] : List α) = .error .empty :=
  ⟨rfl, rfl⟩

/-- C10: `heap_decrease_key` called with an index outside the resolvable
range (`i < -len` or `i ≥ len`) fails with an index error — it never raises
`InvalidKeyError`, and no mutated heap is produced. -/
theorem claim_C10_index_error {α : Type} [LinearOrder α] [Inhabited α]
    (l : List α) (i : ℤ) (key : α)
    (h : i < -(l.length : ℤ) ∨ (l.length : ℤ) ≤ i) :
    heap_decrease_key l i key = .error .indexError := by
  unfold heap_decrease_key
  rw [pyResolve_out h]

/-- C10 witness: index `5` and index `-3` on a one-element heap both raise
the index error. -/
theorem claim_C10_witness :
    heap_decrease_key [toLex ((1 : WithTop ℚ), (0 : ℕ))] 5
      (toLex (0, 0)) = .error .indexError ∧
    heap_decrease_key [toLex ((1 : WithTop ℚ), (0 : ℕ))] (-3)
      (toLex (0, 0)) = .error .indexError :=
  ⟨claim_C10_index_error _ 5 _ (by decide),
    claim_C10_index_error _ (-3) _ (by decide)⟩

namespace SistemaRec1

/-- `SistemaRec1.compute_score`: `mean_rating * log(1 + N_reviews)` with
`mean_rating = sum_ratings / count`. -/
noncomputable def compute_score (sum_ratings : ℝ) (count : ℕ) : ℝ :=
  (sum_ratings / count) * Real.log (1 + count)

variable {S I A : Type} [LinearOrder S] [LinearOrder I] [Inhabited I]

/-- One iteration of the `top_k` loop of `SistemaRec1`: if the heap holds
fewer than `k` elements, insert `(score, item_id)`; otherwise, if the score
strictly exceeds the score of the heap minimum, extract the minimum and then
insert.  The accumulator type `A` and score function `f` abstract the
per-item score computation (`compute_score` applied to the `(sum, count)`
accumulator, in the source). -/
def topKStep (f : A → S) (k : ℕ) (h : List (HeapVal S I)) (x : I × A) :
    Except HeapError (List (HeapVal S I)) :=
  if h.length < k then
    min_heap_insert h (toLex ((f x.2 : WithTop S), x.1))
  else do
    let m ← heap_minimum h
    if (ofLex m).1 < (f x.2 : WithTop S) then do
      let e ← heap_extract_min h
      min_heap_insert e.2 (toLex ((f x.2 : WithTop S), x.1))
    else pure h

/-- `SistemaRec1.top_k`: stream the aggregated items through a min-heap
bounded at `k`, then extract everything (ascending) and reverse the result
(descending). -/
def top_k (f : A → S) (k : ℕ) (agg : List (I × A)) :
    Except HeapError (List (HeapVal S I)) := do
  let h ← agg.foldlM (topKStep f k) []
  pure (drain h).reverse

end SistemaRec1

namespace SistemaRecNaive

/-- `SistemaRecNaive.compute_score`: the same formula as
`SistemaRec1.compute_score`. -/
noncomputable def compute_score (sum_ratings : ℝ) (count : ℕ) : ℝ :=
  (sum_ratings / count) * Real.log (1 + count)

variable {S I A : Type} [LinearOrder S] [LinearOrder I]

instance flipLeIsTotal {β : Type} [LinearOrder β] :
    IsTotal β (fun a b => b ≤ a) :=
  ⟨fun a b => le_total b a⟩

instance flipLeIsTrans {β : Type} [LinearOrder β] :
    IsTrans β (fun a b => b ≤ a) :=
  ⟨fun a b c h1 h2 => le_trans h2 h1⟩

/-- `SistemaRecNaive.top_k`: score every aggregated item, sort all of them
descending (`scored.sort(reverse=True)` on Python tuples is descending
lexicographic order on `(score, item_id)`), and take the first `k`. -/
def top_k (f : A → S) (k : ℕ) (agg : List (I × A)) : List (Lex (S × I)) :=
  ((agg.map (fun x => toLex (f x.2, x.1))).insertionSort
    (fun a b => b ≤ a)).take k

end SistemaRecNaive

/-- C6 counterexample: the claim asserts strict monotonicity in the count
for *every* fixed mean rating, but at mean `0` the score is constantly `0`:
`compute_score (0 * 1) 1 = compute_score (0 * 2) 2 = 0`. -/
theorem claim_C6_counterexample :
    ¬ ((∀ (m : ℝ) (c₁ c₂ : ℕ), 1 ≤ c₁ → c₁ < c₂ →
        SistemaRec1.compute_score (m * c₁) c₁ <
          SistemaRec1.compute_score (m * c₂) c₂) ∧
      (∀ (c : ℕ) (m₁ m₂ : ℝ), 1 ≤ c → m₁ < m₂ →
        SistemaRec1.compute_score (m₁ * c) c <
          SistemaRec1.compute_score (m₂ * c) c)) := by
  intro h
  have h12 := h.1 0 1 2 le_rfl (by omega)
  simp [SistemaRec1.compute_score] at h12

theorem compute_score_mean (m : ℝ) (c : ℕ) (hc : 1 ≤ c) :
    SistemaRec1.compute_score (m * c) c = m * Real.log (1 + c) := by
  unfold SistemaRec1.compute_score
  rw [mul_div_cancel_right₀ m (Nat.cast_ne_zero.mpr (by omega))]

/-- C6 (amended): `compute_score` is strictly increasing in the count for
every fixed *positive* mean rating, and strictly increasing in the mean
rating for every fixed count `≥ 1`.  (As stated the claim is false at mean
`0`, where the score is constantly `0`; the positivity restriction is what
the counterexample forces.) -/
theorem claim_C6_amended_monotone :
    (∀ (m : ℝ) (c₁ c₂ : ℕ), 0 < m → 1 ≤ c₁ → c₁ < c₂ →
      SistemaRec1.compute_score (m * c₁) c₁ <
        SistemaRec1.compute_score (m * c₂) c₂) ∧
    (∀ (c : ℕ) (m₁ m₂ : ℝ), 1 ≤ c → m₁ < m₂ →
      SistemaRec1.compute_score (m₁ * c) c <
        SistemaRec1.compute_score (m₂ * c) c) := by
  constructor
  · intro m c₁ c₂ hm hc₁ hcc
    rw [compute_score_mean m c₁ hc₁,
      compute_score_mean m c₂ (le_of_lt (lt_of_le_of_lt hc₁ hcc))]
    refine mul_lt_mul_of_pos_left (Real.log_lt_log ?_ ?_) hm
    · have : (1 : ℝ) ≤ (c₁ : ℝ) := by exact_mod_cast hc₁
      linarith
    · have : (c₁ : ℝ) < (c₂ : ℝ) := by exact_mod_cast hcc
      linarith
  · intro c m₁ m₂ hc hmm
    rw [compute_score_mean m₁ c hc, compute_score_mean m₂ c hc]
    refine mul_lt_mul_of_pos_right hmm (Real.log_pos ?_)
    have : (1 : ℝ) ≤ (c : ℝ) := by exact_mod_cast hc
    linarith

/-- C6 witness: the amended monotonicity at mean `1`, counts `1 < 2`, and at
count `1`, means `0 < 1`. -/
theorem claim_C6_witness :
    SistemaRec1.compute_score ((1 : ℝ) * ((1 : ℕ) : ℝ)) 1 <
      SistemaRec1.compute_score ((1 : ℝ) * ((2 : ℕ) : ℝ)) 2 ∧
    SistemaRec1.compute_score ((0 : ℝ) * ((1 : ℕ) : ℝ)) 1 <
      SistemaRec1.compute_score ((1 : ℝ) * ((1 : ℕ) : ℝ)) 1 :=
  ⟨claim_C6_amended_monotone.1 1 1 2 one_pos le_rfl (by omega),
    claim_C6_amended_monotone.2 1 0 1 le_rfl one_pos⟩

namespace SistemaRec1

variable {S I A : Type} [LinearOrder S] [LinearOrder I] [Inhabited I]

theorem topKStep_insert (f : A → S) (k : ℕ) (h : List (HeapVal S I))
    (x : I × A) (hlt : h.length < k) :
    topKStep f k h x = min_heap_insert h (toLex ((f x.2 : WithTop S), x.1)) := by
  unfold topKStep
  rw [if_pos hlt]

/-- While the number of processed items stays `≤ k`, the loop inserts every
item, succeeds, and keeps the heap invariant. -/
theorem fold_all_insert (f : A → S) (k : ℕ) :
    ∀ (q : List (I × A)) (h : List (HeapVal S I)), IsMinHeap h →
      h.length + q.length ≤ k →
      ∃ r, List.foldlM (topKStep f k) h q = .ok r ∧ IsMinHeap r ∧
        r.length = h.length + q.length := by
  intro q
  induction q with
  | nil => intro h hh _; exact ⟨h, rfl, hh, by simp⟩
  | cons x q ih =>
    intro h hh hle
    simp only [List.length_cons] at hle
    have hlt : h.length < k := by omega
    rcases min_heap_insert_spec h (toLex ((f x.2 : WithTop S), x.1))
      (sentinel_not_lt _ _) with ⟨r1, he, hperm, hlen, hinv⟩
    rcases ih r1 (hinv hh) (by omega) with ⟨r, he2, hr, hrlen⟩
    refine ⟨r, ?_, hr, by simp only [List.length_cons]; omega⟩
    rw [List.foldlM_cons, topKStep_insert f k h x hlt, he]
    simpa using he2

theorem topKStep_zero_nil (f : A → S) (x : I × A) :
    topKStep f 0 ([] : List (HeapVal S I)) x = .error .empty := by
  unfold topKStep
  rw [if_neg (by simp)]
  rfl

end SistemaRec1

/-- C7: for every aggregated mapping with `n` distinct items and every `K`
with `n < K`, both the bounded Top-K selector and the naive full-sort
selector return exactly `n` results — no padding and no error.  (Proved for
an arbitrary score function `f`, which covers `compute_score`.) -/
theorem claim_C7_n_lt_k {S I A : Type} [LinearOrder S] [LinearOrder I]
    [Inhabited I] (f : A → S) (k : ℕ) (agg : List (I × A))
    (h : agg.length < k) :
    ∃ L, SistemaRec1.top_k f k agg = .ok L ∧ L.length = agg.length ∧
      (SistemaRecNaive.top_k f k agg).length = agg.length := by
  rcases SistemaRec1.fold_all_insert f k agg [] isMinHeap_nil
    (by simpa using le_of_lt h) with ⟨r, he, hr, hrlen⟩
  refine ⟨(drain r).reverse, ?_, ?_, ?_⟩
  · unfold SistemaRec1.top_k
    rw [he]
    rfl
  · rw [List.length_reverse, (drain_perm r).length_eq, hrlen]
    simp
  · unfold SistemaRecNaive.top_k
    rw [List.length_take, (List.perm_insertionSort _ _).length_eq,
      List.length_map]
    omega

/-- C7 witness: one aggregated item, `K = 2`: both selectors return exactly
one result. -/
theorem claim_C7_witness :
    ∃ L, SistemaRec1.top_k (fun a : ℚ => a) 2 [((0 : ℕ), (1 : ℚ))]
        = .ok L ∧ L.length = 1 ∧
      (SistemaRecNaive.top_k (fun a : ℚ => a) 2 [((0 : ℕ), (1 : ℚ))]).length
        = 1 :=
  claim_C7_n_lt_k (fun a : ℚ => a) 2 [((0 : ℕ), (1 : ℚ))] (by simp)

/-- C9: for `k = 0` and a non-empty aggregated mapping, the bounded Top-K
selector raises `EmptyError` — the first iteration takes the `else` branch
and calls `heap_minimum` on the still-empty heap — whereas the naive
full-sort selector on the same input returns the empty list. -/
theorem claim_C9_k_zero {S I A : Type} [LinearOrder S] [LinearOrder I]
    [Inhabited I] (f : A → S) (agg : List (I × A)) (hne : agg ≠ []) :
    SistemaRec1.top_k f 0 agg = .error .empty ∧
    SistemaRecNaive.top_k f 0 agg = [] := by
  constructor
  · cases agg with
    | nil => exact absurd rfl hne
    | cons x q =>
      unfold SistemaRec1.top_k
      rw [List.foldlM_cons, SistemaRec1.topKStep_zero_nil f x]
      rfl
  · unfold SistemaRecNaive.top_k
    simp

/-- C9 witness: the divergence at `k = 0` on a concrete one-item mapping. -/
theorem claim_C9_witness :
    SistemaRec1.top_k (fun a : ℚ => a) 0 [((0 : ℕ), (1 : ℚ))]
      = .error .empty ∧
    SistemaRecNaive.top_k (fun a : ℚ => a) 0 [((0 : ℕ), (1 : ℚ))] = [] :=
  claim_C9_k_zero (fun a : ℚ => a) [((0 : ℕ), (1 : ℚ))] (by simp)

section TopKUnique

variable {β : Type} [LinearOrder β]

theorem lex_le_fst {γ δ : Type} [LinearOrder γ] [LinearOrder δ]
    {v w : Lex (γ × δ)} (h : v ≤ w) : (ofLex v).1 ≤ (ofLex w).1 := by
  rcases (Prod.Lex.le_iff (ofLex v) (ofLex w)).mp h with h1 | ⟨h1, _⟩
  · exact le_of_lt h1
  · exact le_of_eq h1

theorem lex_lt_of_fst_lt {γ δ : Type} [LinearOrder γ] [LinearOrder δ]
    {v w : Lex (γ × δ)} (h : (ofLex v).1 < (ofLex w).1) : v < w :=
  (Prod.Lex.lt_iff (ofLex v) (ofLex w)).mpr (Or.inl h)

theorem perm_of_nodup_subset_length {l1 l2 : List β} (h1 : l1.Nodup)
    (hsub : l1 ⊆ l2) (hlen : l2.length ≤ l1.length) : l1.Perm l2 := by
  rcases h1.subperm hsub with ⟨l, hlp, hls⟩
  have hll : l.length = l2.length :=
    le_antisymm hls.length_le (by rw [hlp.length_eq]; exact hlen)
  rw [← hls.eq_of_length hll]
  exact hlp.symm

/-- Uniqueness of a bounded selection: two duplicate-free lists drawn from
the same universe, of equal size, such that every universe element outside
the list is strictly below every list element, are permutations of each
other. -/
theorem topk_unique (univ La Lb : List β) (hA : La.Nodup) (hB : Lb.Nodup)
    (hlen : La.length = Lb.length)
    (hAu : ∀ v ∈ La, v ∈ univ) (hBu : ∀ v ∈ Lb, v ∈ univ)
    (hA4 : ∀ w ∈ univ, w ∉ La → ∀ v ∈ La, w < v)
    (hB4 : ∀ w ∈ univ, w ∉ Lb → ∀ v ∈ Lb, w < v) : La.Perm Lb := by
  have key : ∀ (X Y : List β), X.Nodup → Y.Nodup → X.length = Y.length →
      (∀ v ∈ X, v ∈ univ) → (∀ v ∈ Y, v ∈ univ) →
      (∀ w ∈ univ, w ∉ X → ∀ v ∈ X, w < v) →
      (∀ w ∈ univ, w ∉ Y → ∀ v ∈ Y, w < v) →
      ∀ v ∈ X, v ∈ Y := by
    intro X Y hX hY hl hXu hYu hX4 hY4 v hv
    by_contra hvY
    by_cases hYX : ∀ b ∈ Y, b ∈ X
    · have hperm : Y.Perm X :=
        perm_of_nodup_subset_length hY (fun b hb => hYX b hb) (le_of_eq hl)
      exact hvY (hperm.symm.mem_iff.mp hv)
    · push_neg at hYX
      rcases hYX with ⟨b, hbY, hbX⟩
      have h1 : b < v := hX4 b (hYu b hbY) hbX v hv
      have h2 : v < b := hY4 v (hXu v hv) hvY b hbY
      exact absurd (h1.trans h2) (lt_irrefl b)
  have hab : La ⊆ Lb := fun v hv =>
    key La Lb hA hB hlen hAu hBu hA4 hB4 v hv
  have hba : Lb ⊆ La := fun v hv =>
    key Lb La hB hA hlen.symm hBu hAu hB4 hA4 v hv
  exact (hA.subperm hab).antisymm (hB.subperm hba)

end TopKUnique

namespace MinHeap

variable {α : Type} [LinearOrder α] [Inhabited α]

theorem isMinHeap_root_le_mem (l : List α) (hl : IsMinHeap l) {v : α}
    (hv : v ∈ l) : l.getD 0 default ≤ v := by
  rcases List.getElem_of_mem hv with ⟨j, hj, rfl⟩
  rw [← List.getD_eq_getElem l default hj]
  exact isMinHeap_root_le l hl j hj

theorem getD_zero_mem (l : List α) (h : l ≠ []) : l.getD 0 default ∈ l := by
  have hlen : 0 < l.length := List.length_pos.mpr h
  rw [List.getD_eq_getElem l default hlen]
  exact List.getElem_mem hlen

end MinHeap

namespace SistemaRecNaive

variable {S I A : Type} [LinearOrder S] [LinearOrder I]

/-- The scored item built by the naive selector. -/
def scoredP (f : A → S) (x : I × A) : Lex (S × I) := toLex (f x.2, x.1)

/-- Characterization of the naive selector's output for `k ≤ n`: it is a
duplicate-free selection of `k` scored items such that every scored item
left out is strictly below (in the descending sort order used by the
source) every selected one, and it is sorted descending. -/
theorem top_k_spec (f : A → S) (k : ℕ) (agg : List (I × A))
    (hids : (agg.map Prod.fst).Nodup) (hkn : k ≤ agg.length) :
    (top_k f k agg).Nodup ∧ (top_k f k agg).length = k ∧
    (∀ v ∈ top_k f k agg, v ∈ agg.map (scoredP f)) ∧
    (∀ w ∈ agg.map (scoredP f), w ∉ top_k f k agg →
      ∀ v ∈ top_k f k agg, w < v) ∧
    List.Sorted (fun a b => b ≤ a) (top_k f k agg) := by
  have hPn : (agg.map (scoredP f)).Nodup := by
    refine List.Nodup.of_map (fun v => (ofLex v).2) ?_
    rw [List.map_map]
    exact hids
  have hps : (List.insertionSort (fun a b => b ≤ a)
      (agg.map (scoredP f))).Perm (agg.map (scoredP f)) :=
    List.perm_insertionSort _ _
  have hsort : List.Sorted (fun a b => b ≤ a)
      (List.insertionSort (fun a b => b ≤ a) (agg.map (scoredP f))) :=
    List.sorted_insertionSort _ _
  have hsn : (List.insertionSort (fun a b => b ≤ a)
      (agg.map (scoredP f))).Nodup := hps.nodup_iff.mpr hPn
  have hlen : (List.insertionSort (fun a b => b ≤ a)
      (agg.map (scoredP f))).length = agg.length := by
    rw [hps.length_eq, List.length_map]
  have htake : top_k f k agg = (List.insertionSort (fun a b => b ≤ a)
      (agg.map (scoredP f))).take k := rfl
  refine ⟨?_, ?_, ?_, ?_, ?_⟩
  · rw [htake]
    exact (List.take_sublist k _).nodup hsn
  · rw [htake, List.length_take, hlen]
    omega
  · intro v hv
    rw [htake] at hv
    exact hps.mem_iff.mp ((List.take_sublist k _).subset hv)
  · intro w hw hwn v hv
    have hwin : w ∈ List.insertionSort (fun a b => b ≤ a)
        (agg.map (scoredP f)) := hps.mem_iff.mpr hw
    have hwdrop : w ∈ (List.insertionSort (fun a b => b ≤ a)
        (agg.map (scoredP f))).drop k := by
      rcases (List.mem_append.mp (by
        rw [List.take_append_drop]; exact hwin :
          w ∈ (List.insertionSort (fun a b => b ≤ a)
            (agg.map (scoredP f))).take k ++
          (List.insertionSort (fun a b => b ≤ a)
            (agg.map (scoredP f))).drop k)) with h | h
      · rw [htake] at hwn; exact absurd h hwn
      · exact h
    have hrel : w ≤ v := hsort.rel_of_mem_take_of_mem_drop
      (by rw [htake] at hv; exact hv) hwdrop
    have hne : w ≠ v := by
      intro he; subst he; exact hwn hv
    exact lt_of_le_of_ne hrel hne
  · rw [htake]
    exact hsort.sublist (List.take_sublist k _)

end SistemaRecNaive

namespace SistemaRec1

variable {S I A : Type} [LinearOrder S] [LinearOrder I] [Inhabited I]

/-- The scored heap entry built by the bounded selector. -/
def scoredW (f : A → S) (x : I × A) : HeapVal S I :=
  toLex ((f x.2 : WithTop S), x.1)

/-- Loop invariant of the bounded selector over the processed prefix `p`:
the heap satisfies the invariant, holds `min k |p|` pairwise-distinct
entries, all drawn from the scored prefix, and every scored prefix item not
in the heap is strictly below every heap entry (in the lexicographic order
on `(score, item_id)`). -/
def SelInv (f : A → S) (k : ℕ) (p : List (I × A))
    (h : List (HeapVal S I)) : Prop :=
  IsMinHeap h ∧ h.Nodup ∧ h.length = min k p.length ∧
  (∀ v ∈ h, v ∈ p.map (scoredW f)) ∧
  (∀ w ∈ p.map (scoredW f), w ∉ h → ∀ v ∈ h, w < v)

theorem selInv_nil (f : A → S) (k : ℕ) :
    SelInv f k ([] : List (I × A)) ([] : List (HeapVal S I)) := by
  unfold SelInv
  refine ⟨?_, List.nodup_nil, by simp, ?_, ?_⟩
  · intro j hj0 hj
    simp at hj
  · intro v hv
    simp at hv
  · intro w hw
    simp at hw

theorem selInv_step (f : A → S) (k : ℕ) (p q : List (I × A)) (x : I × A)
    (hids : (((p ++ x :: q)).map Prod.fst).Nodup)
    (hsc : (((p ++ x :: q)).map (fun z => f z.2)).Nodup)
    (hk : 1 ≤ k) (h : List (HeapVal S I)) (hinv : SelInv f k p h) :
    ∃ h1, topKStep f k h x = .ok h1 ∧ SelInv f k (p ++ [x]) h1 := by
  obtain ⟨hheap, hnodup, hlen, hmem, hout⟩ := hinv
  have hid_x : x.1 ∉ p.map Prod.fst := by
    rw [List.map_append] at hids
    have h2 := (List.pairwise_append.mp hids).2.2
    intro hmem2
    exact h2 x.1 hmem2 x.1 (by simp) rfl
  have hsWnotin : scoredW f x ∉ p.map (scoredW f) := by
    intro hm
    rcases List.mem_map.mp hm with ⟨y, hy, he⟩
    apply hid_x
    have hyx : y.1 = x.1 := congrArg (fun v => (ofLex v).2) he
    rw [← hyx]
    exact List.mem_map.mpr ⟨y, hy, rfl⟩
  have hscne : ∀ y ∈ p, (f y.2 : WithTop S) ≠ (f x.2 : WithTop S) := by
    rw [List.map_append] at hsc
    have h2 := (List.pairwise_append.mp hsc).2.2
    intro y hy he
    exact h2 (f y.2) (List.mem_map.mpr ⟨y, hy, rfl⟩) (f x.2) (by simp)
      (WithTop.coe_injective he)
  have hmem_app : ∀ v ∈ h, v ∈ (p ++ [x]).map (scoredW f) := by
    intro v hv
    rw [List.map_append]
    exact List.mem_append.mpr (Or.inl (hmem v hv))
  have hv_notin_h : scoredW f x ∉ h := fun hc => hsWnotin (hmem _ hc)
  by_cases hlt : h.length < k
  · -- fill phase: unconditional insert
    have hplen : p.length < k ∧ h.length = p.length := by
      rcases le_or_lt k p.length with hh | hh
      · rw [min_eq_left hh] at hlen; omega
      · rw [min_eq_right (le_of_lt hh)] at hlen; exact ⟨hh, hlen⟩
    rcases min_heap_insert_spec h (scoredW f x) (sentinel_not_lt _ _) with
      ⟨r, he, hperm, hrlen, hinv2⟩
    have hhperm_univ : h.Perm (p.map (scoredW f)) :=
      perm_of_nodup_subset_length hnodup (fun v hv => hmem v hv)
        (by rw [List.length_map]; omega)
    refine ⟨r, ?_, ?_⟩
    · rw [topKStep_insert f k h x hlt]
      exact he
    · refine ⟨hinv2 hheap, ?_, ?_, ?_, ?_⟩
      · rw [hperm.nodup_iff]
        refine List.nodup_append.mpr ⟨hnodup, List.nodup_singleton _, ?_⟩
        intro a ha hb
        rw [List.mem_singleton] at hb
        subst hb
        exact hv_notin_h ha
      · rw [hrlen]
        simp only [List.length_append, List.length_singleton]
        rw [min_eq_right (by omega)]
        omega
      · intro v hv
        rcases List.mem_append.mp (hperm.subset hv) with h1 | h1
        · exact hmem_app v h1
        · rw [List.mem_singleton] at h1
          subst h1
          rw [List.map_append]
          exact List.mem_append.mpr (Or.inr (by simp))
      · intro w hw hwn v0 hv0
        exfalso
        apply hwn
        rw [List.map_append] at hw
        rcases List.mem_append.mp hw with h1 | h1
        · have hwh : w ∈ h := hhperm_univ.mem_iff.mpr h1
          exact hperm.mem_iff.mpr (List.mem_append.mpr (Or.inl hwh))
        · simp only [List.map_cons, List.map_nil, List.mem_singleton] at h1
          subst h1
          exact hperm.mem_iff.mpr (List.mem_append.mpr (Or.inr (by simp)))
  · -- full phase
    have hkp : k ≤ p.length := by
      rcases le_or_lt k p.length with hh | hh
      · exact hh
      · rw [min_eq_right (le_of_lt hh)] at hlen; omega
    have hhk : h.length = k := by rw [hlen, min_eq_left hkp]
    have hne : h ≠ [] := by
      intro hc
      rw [hc] at hhk
      simp at hhk
      omega
    have hmin_eq : heap_minimum h = .ok (h.getD 0 default) :=
      heap_minimum_ne_nil h hne
    set m := h.getD 0 default with hm
    have hm_mem : m ∈ h := getD_zero_mem h hne
    have hm_le : ∀ v ∈ h, m ≤ v := fun v hv =>
      isMinHeap_root_le_mem h hheap hv
    by_cases hgt : (ofLex m).1 < (f x.2 : WithTop S)
    · -- replace: extract the minimum, then insert
      have hex := heap_extract_min_ne_nil h hne
      set rest := (if (popSwap h).isEmpty then popSwap h
        else min_heapify (popSwap h) 0) with hrest
      have hrest_perm : (m :: rest).Perm h :=
        heap_extract_min_ok_perm h (m, rest) hex
      have hrest_inv : IsMinHeap rest :=
        heap_extract_min_ok_isMinHeap h (m, rest) hheap hex
      have hrest_len : rest.length + 1 = h.length :=
        heap_extract_min_ok_length h (m, rest) hex
      have hmr_nodup : (m :: rest).Nodup := hrest_perm.nodup_iff.mpr hnodup
      have hm_notin_rest : m ∉ rest := (List.nodup_cons.mp hmr_nodup).1
      have hrest_nodup : rest.Nodup := (List.nodup_cons.mp hmr_nodup).2
      have hrest_sub_h : ∀ v ∈ rest, v ∈ h := fun v hv =>
        hrest_perm.subset (List.mem_cons_of_mem m hv)
      rcases min_heap_insert_spec rest (scoredW f x) (sentinel_not_lt _ _)
        with ⟨r, hie, hiperm, hirlen, hiinv⟩
      refine ⟨r, ?_, ?_⟩
      · unfold topKStep
        rw [if_neg hlt, hmin_eq]
        show (if (ofLex m).1 < (f x.2 : WithTop S) then _ else _) = _
        rw [if_pos hgt, hex]
        exact hie
      · refine ⟨hiinv hrest_inv, ?_, ?_, ?_, ?_⟩
        · rw [hiperm.nodup_iff]
          refine List.nodup_append.mpr ⟨hrest_nodup, List.nodup_singleton _, ?_⟩
          intro a ha hb
          rw [List.mem_singleton] at hb
          subst hb
          exact hv_notin_h (hrest_sub_h _ ha)
        · rw [hirlen]
          simp only [List.length_append, List.length_singleton]
          rw [min_eq_left (by omega)]
          omega
        · intro v hv
          rcases List.mem_append.mp (hiperm.subset hv) with h1 | h1
          · exact hmem_app v (hrest_sub_h v h1)
          · rw [List.mem_singleton] at h1
            subst h1
            rw [List.map_append]
            exact List.mem_append.mpr (Or.inr (by simp))
        · intro w hw hwn v0 hv0
          have hv0' := hiperm.subset hv0
          rw [List.map_append] at hw
          rcases List.mem_append.mp hw with hwp | hwx
          · by_cases hwh : w ∈ h
            · -- the only element of `h` missing from the result is `m`
              have hw_eq_m : w = m := by
                rcases List.mem_cons.mp (hrest_perm.symm.subset hwh) with
                  he | hwr
                · exact he
                · exact absurd (hiperm.mem_iff.mpr
                    (List.mem_append.mpr (Or.inl hwr))) hwn
              subst hw_eq_m
              rcases List.mem_append.mp hv0' with hv0r | hv0x
              · exact lt_of_le_of_ne (hm_le v0 (hrest_sub_h v0 hv0r))
                  (fun he => hm_notin_rest (he ▸ hv0r))
              · rw [List.mem_singleton] at hv0x
                subst hv0x
                exact lex_lt_of_fst_lt hgt
            · have hold := hout w hwp hwh
              rcases List.mem_append.mp hv0' with hv0r | hv0x
              · exact hold v0 (hrest_sub_h v0 hv0r)
              · rw [List.mem_singleton] at hv0x
                subst hv0x
                exact (hold m hm_mem).trans (lex_lt_of_fst_lt hgt)
          · simp only [List.map_cons, List.map_nil, List.mem_singleton] at hwx
            subst hwx
            exact absurd (hiperm.mem_iff.mpr
              (List.mem_append.mpr (Or.inr (by simp)))) hwn
    · -- skip: the candidate does not beat the heap minimum
      refine ⟨h, ?_, ?_⟩
      · unfold topKStep
        rw [if_neg hlt, hmin_eq]
        show (if (ofLex m).1 < (f x.2 : WithTop S) then _ else _) = _
        rw [if_neg hgt]
        rfl
      · refine ⟨hheap, hnodup, ?_, hmem_app, ?_⟩
        · rw [min_eq_left
            (by simp only [List.length_append, List.length_singleton]; omega)]
          exact hhk
        · intro w hw hwn v0 hv0
          rw [List.map_append] at hw
          rcases List.mem_append.mp hw with hwp | hwx
          · exact hout w hwp hwn v0 hv0
          · simp only [List.map_cons, List.map_nil, List.mem_singleton] at hwx
            subst hwx
            have hm_in_p : m ∈ p.map (scoredW f) := hmem m hm_mem
            rcases List.mem_map.mp hm_in_p with ⟨y, hy, hym⟩
            have hne2 : (ofLex m).1 ≠ (f x.2 : WithTop S) := by
              rw [← hym]
              exact hscne y hy
            have hlt2 : (f x.2 : WithTop S) < (ofLex m).1 :=
              lt_of_le_of_ne (le_of_not_lt hgt) (fun he => hne2 he.symm)
            exact lex_lt_of_fst_lt
              (lt_of_lt_of_le hlt2 (lex_le_fst (hm_le v0 hv0)))

end SistemaRec1

namespace SistemaRec1

variable {S I A : Type} [LinearOrder S] [LinearOrder I] [Inhabited I]

theorem selInv_fold (f : A → S) (k : ℕ) (agg : List (I × A))
    (hids : (agg.map Prod.fst).Nodup)
    (hsc : (agg.map (fun z => f z.2)).Nodup) (hk : 1 ≤ k) :
    ∀ (q p : List (I × A)) (h : List (HeapVal S I)), agg = p ++ q →
      SelInv f k p h →
      ∃ r, List.foldlM (topKStep f k) h q = .ok r ∧ SelInv f k agg r := by
  intro q
  induction q with
  | nil =>
    intro p h hagg hinv
    rw [List.append_nil] at hagg
    subst hagg
    exact ⟨h, rfl, hinv⟩
  | cons x q ih =>
    intro p h hagg hinv
    subst hagg
    rcases selInv_step f k p q x hids hsc hk h hinv with ⟨h1, hse, hinv1⟩
    rcases ih (p ++ [x]) h1 (by rw [List.append_assoc]; rfl) hinv1 with
      ⟨r, hre, hrinv⟩
    refine ⟨r, ?_, hrinv⟩
    rw [List.foldlM_cons, hse]
    simpa using hre

end SistemaRec1

/-- C1 (amended): for every aggregated mapping (pairwise-distinct item ids,
as a mapping has) whose scores are also pairwise distinct, and every `K`
with `1 ≤ K ≤ n`, the bounded selector succeeds, its result set of item-ids
equals the naive selector's result set exactly, and both results are sorted
descending by score.  (As stated — all `K ≤ n` and no condition on ties —
the claim is false: see the counterexample, where two items share a score
and the two selectors keep different ones, and `K = 0` additionally makes
the bounded selector raise.  Proved for an arbitrary score function `f`,
which covers `compute_score`.) -/
theorem claim_C1_amended {S I A : Type} [LinearOrder S] [LinearOrder I]
    [Inhabited I] (f : A → S) (k : ℕ) (agg : List (I × A))
    (hids : (agg.map Prod.fst).Nodup)
    (hsc : (agg.map (fun z => f z.2)).Nodup)
    (hk1 : 1 ≤ k) (hkn : k ≤ agg.length) :
    ∃ L, SistemaRec1.top_k f k agg = .ok L ∧
      (L.map (fun v => (ofLex v).2)).Perm
        ((SistemaRecNaive.top_k f k agg).map (fun v => (ofLex v).2)) ∧
      List.Sorted (fun a b => b ≤ a) (L.map (fun v => (ofLex v).1)) ∧
      List.Sorted (fun a b => b ≤ a)
        ((SistemaRecNaive.top_k f k agg).map (fun v => (ofLex v).1)) := by
  rcases SistemaRec1.selInv_fold f k agg hids hsc hk1 agg [] [] rfl
    (SistemaRec1.selInv_nil f k) with ⟨r, hre, hrinv⟩
  obtain ⟨hheap, hnodup, hlen, hmemb, hout⟩ := hrinv
  have hrlen : r.length = k := by rw [hlen, min_eq_left hkn]
  obtain ⟨hNn, hNlen, hNmem, hN4, hNsort⟩ :=
    SistemaRecNaive.top_k_spec f k agg hids hkn
  have he_inj : Function.Injective
      (fun v : Lex (S × I) =>
        (toLex (((ofLex v).1 : WithTop S), (ofLex v).2) : HeapVal S I)) := by
    intro a b hab
    have h1 := congrArg (fun v => (ofLex v).1) hab
    have h2 := congrArg (fun v => (ofLex v).2) hab
    exact ofLex.injective (Prod.ext (WithTop.coe_injective h1) h2)
  have he_mono : ∀ a b : Lex (S × I), a < b →
      (toLex (((ofLex a).1 : WithTop S), (ofLex a).2) : HeapVal S I) <
        toLex (((ofLex b).1 : WithTop S), (ofLex b).2) := by
    intro a b hab
    rcases (Prod.Lex.lt_iff (ofLex a) (ofLex b)).mp hab with h1 | ⟨h1, h2⟩
    · exact (Prod.Lex.lt_iff _ _).mpr (Or.inl (WithTop.coe_lt_coe.mpr h1))
    · exact (Prod.Lex.lt_iff _ _).mpr (Or.inr ⟨by rw [h1], h2⟩)
  have hmapW : agg.map (SistemaRec1.scoredW f)
      = (agg.map (SistemaRecNaive.scoredP f)).map
        (fun v => toLex (((ofLex v).1 : WithTop S), (ofLex v).2)) := by
    rw [List.map_map]
    rfl
  have hperm_rN : r.Perm ((SistemaRecNaive.top_k f k agg).map
      (fun v => toLex (((ofLex v).1 : WithTop S), (ofLex v).2))) := by
    refine topk_unique (agg.map (SistemaRec1.scoredW f)) r _ hnodup
      (hNn.map he_inj) ?_ hmemb ?_ hout ?_
    · rw [List.length_map, hNlen, hrlen]
    · intro v hv
      rcases List.mem_map.mp hv with ⟨v0, hv0, rfl⟩
      rw [hmapW]
      exact List.mem_map_of_mem _ (hNmem v0 hv0)
    · intro w hw hwn v hv
      rw [hmapW] at hw
      rcases List.mem_map.mp hw with ⟨w0, hw0, rfl⟩
      rcases List.mem_map.mp hv with ⟨v0, hv0, rfl⟩
      have hw0n : w0 ∉ SistemaRecNaive.top_k f k agg := fun hc =>
        hwn (List.mem_map_of_mem _ hc)
      exact he_mono _ _ (hN4 w0 hw0 hw0n v0 hv0)
  refine ⟨(drain r).reverse, ?_, ?_, ?_, ?_⟩
  · unfold SistemaRec1.top_k
    rw [hre]
    rfl
  · have h1 : ((drain r).reverse.map (fun v => (ofLex v).2)).Perm
        (r.map (fun v => (ofLex v).2)) :=
      (((drain r).reverse_perm).trans (drain_perm r)).map _
    have h2 : (((SistemaRecNaive.top_k f k agg).map
        (fun v => toLex (((ofLex v).1 : WithTop S), (ofLex v).2))).map
          (fun v => (ofLex v).2))
        = (SistemaRecNaive.top_k f k agg).map (fun v => (ofLex v).2) := by
      rw [List.map_map]
      rfl
    refine h1.trans ?_
    rw [← h2]
    exact hperm_rN.map _
  · have hsorted : List.Sorted (· ≤ ·) (drain r) := drain_sorted r hheap
    have hrev : List.Pairwise (fun a b => b ≤ a) (drain r).reverse :=
      (List.pairwise_reverse).mpr hsorted
    exact List.pairwise_map.mpr (hrev.imp (fun hab => lex_le_fst hab))
  · exact List.pairwise_map.mpr (hNsort.imp (fun hab => lex_le_fst hab))

namespace MinHeap

variable {α : Type} [LinearOrder α] [Inhabited α]

theorem siftUp_zero (l : List α) : siftUp l 0 = l := by
  rw [siftUp, dif_neg]
  simp

theorem drain_singleton (v : α) : drain [v] = [v] := by
  have hp := drain_perm [v]
  rcases List.length_eq_one.mp (by rw [hp.length_eq]; rfl) with ⟨b, hb⟩
  have hbv : b = v := by
    have hm : b ∈ [v] := hp.subset (by rw [hb]; simp)
    simpa using hm
  rw [hb, hbv]

variable {S I : Type} [LinearOrder S] [LinearOrder I] [Inhabited I]

theorem min_heap_insert_nil (v : HeapVal S I)
    (hkey : ¬ (sentinel : HeapVal S I) < v) :
    min_heap_insert [] v = .ok [v] := by
  rw [min_heap_insert_eq [] v hkey]
  rw [show (([] : List (HeapVal S I)) ++ [v]) = [v] from rfl,
    show ([] : List (HeapVal S I)).length = 0 from rfl, siftUp_zero]

end MinHeap

namespace SistemaRec1

variable {S I A : Type} [LinearOrder S] [LinearOrder I] [Inhabited I]

theorem topKStep_skip (f : A → S) (k : ℕ) (h : List (HeapVal S I))
    (x : I × A) (hlt : ¬ h.length < k) (hne : h ≠ [])
    (hng : ¬ ((ofLex (h.getD 0 default)).1 < (f x.2 : WithTop S))) :
    topKStep f k h x = .ok h := by
  unfold topKStep
  rw [if_neg hlt, heap_minimum_ne_nil h hne]
  show (if (ofLex (h.getD 0 default)).1 < (f x.2 : WithTop S)
    then _ else _) = _
  rw [if_neg hng]
  rfl

end SistemaRec1

/-- C1 counterexample: on the aggregated mapping
`{"A": (5.0, 1), "B": (5.0, 1)}` (distinct ids, equal scores) with `K = 1`,
the bounded selector keeps the first-seen item `"A"` (the replacement test
`score > heap_minimum()[0]` is strict), while the naive selector sorts
descending on `(score, item_id)` and keeps `"B"` — the two result sets of
item-ids differ, refuting the claim as stated. -/
theorem claim_C1_counterexample :
    ¬ (∀ (agg : List (String × ℝ × ℕ)) (k : ℕ),
        (agg.map Prod.fst).Nodup → k ≤ agg.length →
        ∃ L, SistemaRec1.top_k
            (fun a => SistemaRec1.compute_score a.1 a.2) k agg = .ok L ∧
          (L.map (fun v => (ofLex v).2)).Perm
            ((SistemaRecNaive.top_k
              (fun a => SistemaRecNaive.compute_score a.1 a.2) k agg).map
                (fun v => (ofLex v).2)) ∧
          List.Sorted (fun a b => b ≤ a) (L.map (fun v => (ofLex v).1)) ∧
          List.Sorted (fun a b => b ≤ a)
            ((SistemaRecNaive.top_k
              (fun a => SistemaRecNaive.compute_score a.1 a.2) k agg).map
                (fun v => (ofLex v).1))) := by
  intro hclaim
  obtain ⟨L, hok, hperm, _, _⟩ := hclaim
    [("A", ((5 : ℝ), (1 : ℕ))), ("B", ((5 : ℝ), (1 : ℕ)))] 1
    (by simp) (by simp)
  have hstep1 : SistemaRec1.topKStep
      (fun a : ℝ × ℕ => SistemaRec1.compute_score a.1 a.2) 1 []
      ("A", ((5 : ℝ), (1 : ℕ)))
      = .ok [toLex ((SistemaRec1.compute_score 5 1 : WithTop ℝ), "A")] := by
    rw [SistemaRec1.topKStep_insert _ _ _ _ (by simp)]
    exact min_heap_insert_nil _ (sentinel_not_lt _ _)
  have hstep2 : SistemaRec1.topKStep
      (fun a : ℝ × ℕ => SistemaRec1.compute_score a.1 a.2) 1
      [toLex ((SistemaRec1.compute_score 5 1 : WithTop ℝ), "A")]
      ("B", ((5 : ℝ), (1 : ℕ)))
      = .ok [toLex ((SistemaRec1.compute_score 5 1 : WithTop ℝ), "A")] := by
    refine SistemaRec1.topKStep_skip _ _ _ _ (by simp) (by simp) ?_
    exact fun hc => lt_irrefl _ hc
  have hfold : List.foldlM (SistemaRec1.topKStep
        (fun a : ℝ × ℕ => SistemaRec1.compute_score a.1 a.2) 1)
      ([] : List (HeapVal ℝ String))
      [("A", ((5 : ℝ), (1 : ℕ))), ("B", ((5 : ℝ), (1 : ℕ)))]
      = .ok [toLex ((SistemaRec1.compute_score 5 1 : WithTop ℝ), "A")] := by
    rw [List.foldlM_cons, hstep1]
    show List.foldlM (SistemaRec1.topKStep
        (fun a : ℝ × ℕ => SistemaRec1.compute_score a.1 a.2) 1)
      [toLex ((SistemaRec1.compute_score 5 1 : WithTop ℝ), "A")]
      [("B", ((5 : ℝ), (1 : ℕ)))]
      = .ok [toLex ((SistemaRec1.compute_score 5 1 : WithTop ℝ), "A")]
    rw [List.foldlM_cons, hstep2]
    rfl
  have hbounded : SistemaRec1.top_k
      (fun a : ℝ × ℕ => SistemaRec1.compute_score a.1 a.2) 1
      [("A", ((5 : ℝ), (1 : ℕ))), ("B", ((5 : ℝ), (1 : ℕ)))]
      = .ok [toLex ((SistemaRec1.compute_score 5 1 : WithTop ℝ), "A")] := by
    unfold SistemaRec1.top_k
    rw [hfold]
    show Except.ok ((drain
      [toLex ((SistemaRec1.compute_score 5 1 : WithTop ℝ), "A")]).reverse) = _
    rw [drain_singleton]
    rfl
  have hord : ¬ ((toLex (SistemaRecNaive.compute_score 5 1, "B")
      : Lex (ℝ × String)) ≤ toLex (SistemaRecNaive.compute_score 5 1, "A")) := by
    intro hle
    have hAB : ("A" : String) < "B" := by
      rw [String.lt_iff_toList_lt]
      decide
    rcases (Prod.Lex.le_iff _ _).mp hle with h1 | ⟨h1, h2⟩
    · exact lt_irrefl _ h1
    · exact absurd h2 (not_le_of_lt hAB)
  have hnaive : SistemaRecNaive.top_k
      (fun a : ℝ × ℕ => SistemaRecNaive.compute_score a.1 a.2) 1
      [("A", ((5 : ℝ), (1 : ℕ))), ("B", ((5 : ℝ), (1 : ℕ)))]
      = [toLex ((SistemaRecNaive.compute_score 5 1 : ℝ), "B")] := by
    unfold SistemaRecNaive.top_k
    show ((List.insertionSort (fun a b => b ≤ a)
      [toLex ((SistemaRecNaive.compute_score 5 1 : ℝ), "A"),
        toLex ((SistemaRecNaive.compute_score 5 1 : ℝ), "B")]).take 1) = _
    simp only [List.insertionSort, List.orderedInsert]
    rw [if_neg hord]
    rfl
  rw [hbounded] at hok
  injection hok with hok
  rw [hnaive, ← hok] at hperm
  have hmem : ("A" : String) ∈
      ([toLex ((SistemaRecNaive.compute_score 5 1 : ℝ), "B")].map
        (fun v => (ofLex v).2)) :=
    hperm.subset (by
      show ("A" : String) ∈ ["A"]
      simp)
  have hAB : ("A" : String) = "B" := List.mem_singleton.mp hmem
  exact absurd hAB (by decide)

/-- C1 witness: the amended equivalence at the one-item mapping
`[(0, 5)]` with `K = 1` and the identity score function. -/
theorem claim_C1_witness :
    ∃ L, SistemaRec1.top_k (fun a : ℚ => a) 1 [((0 : ℕ), (5 : ℚ))]
        = .ok L ∧
      (L.map (fun v => (ofLex v).2)).Perm
        ((SistemaRecNaive.top_k (fun a : ℚ => a) 1
          [((0 : ℕ), (5 : ℚ))]).map (fun v => (ofLex v).2)) ∧
      List.Sorted (fun a b => b ≤ a) (L.map (fun v => (ofLex v).1)) ∧
      List.Sorted (fun a b => b ≤ a)
        ((SistemaRecNaive.top_k (fun a : ℚ => a) 1
          [((0 : ℕ), (5 : ℚ))]).map (fun v => (ofLex v).1)) :=
  claim_C1_amended (fun a : ℚ => a) 1 [((0 : ℕ), (5 : ℚ))]
    (by simp) (by simp) (by omega) (by simp)
